import Mathlib

/-! The `ctyler` clone-pruning pass (`tree-ctyler.cc`).

A shallow embedding of the pass: the helper `get_base_name`, the comparison
`are_functions_equivalent`, and `pass_ctyler::execute` (diagnostic dump, grouping
of the clones by base name, one verdict per group of two or more).

Conventions of the embedding.

* A statement (`gimple *`) is a value of an arbitrary type `σ`.  The two GCC
  services the pass calls on statements are parameters: `gimple_stmt_equal_p`
  (the statement equality, `StatementEq` in the specification) and `render`
  (the text `print_gimple_stmt` writes).
* An identifier is a `String`; the C string functions work on its characters
  (`String.data`), the terminating NUL being left implicit.
* The functions reached from the root through `next` are a `List`.
* `std::map<tree, ...>` iterates in the order of its keys, which are pointers
  to identifier nodes.  That order is the parameter `keyLt`; two keys are the
  same key exactly when they are the same identifier.
* The counters `bb_cnt` and `stmt_cnt` are natural numbers: the `int` of the
  source does not wrap below 2^31 blocks or statements.
-/

namespace Ctyler

/-! ## Data model -/

/-- A `function` as the pass reads it: its declared name and the statements of
its basic blocks, in the order `FOR_EACH_BB_FN` visits them. -/
structure Function (σ : Type) where
  name : String
  blocks : List (List σ)
  deriving DecidableEq

/-- One write to `dump_file`. -/
inductive DumpLine (σ : Type) where
  | banner : DumpLine σ
  | bb_count : Nat → DumpLine σ
  | stmt_count : Nat → DumpLine σ
  | stmt : σ → DumpLine σ
  | prune : String → DumpLine σ
  | noprune : String → DumpLine σ
  deriving DecidableEq

/-- The characters a write puts in the dump file (the `fprintf` format strings of
`execute`; `render` stands for `print_gimple_stmt`). -/
def DumpLine.text {σ : Type} (render : σ → String) : DumpLine σ → String
  | .banner => "===== Dummy Pass Diagnostic Dump =====\n"
  | .bb_count n => "===== Basic block count: " ++ toString n ++ " =====\n"
  | .stmt_count n => "----- Statement count: " ++ toString n ++ " -----\n"
  | .stmt g => render g
  | .prune name => "PRUNE: " ++ name ++ "\n"
  | .noprune name => "NOPRUNE: " ++ name ++ "\n"

/-- Whether a write is a verdict (`PRUNE:` or `NOPRUNE:`). -/
def DumpLine.isVerdict {σ : Type} : DumpLine σ → Bool
  | .prune _ => true
  | .noprune _ => true
  | _ => false

/-! ## C string helpers -/

/-- `strlen`. -/
def strlen (s : List Char) : Nat := s.length

/-- `strcmp`: zero when the two strings are the same, otherwise the difference
of the first two characters that differ (the NUL of the shorter string counts
as 0). -/
def strcmp : List Char → List Char → Int
  | [], [] => 0
  | [], d :: _ => 0 - (d.toNat : Int)
  | c :: _, [] => (c.toNat : Int) - 0
  | c :: cs, d :: ds => if c = d then strcmp cs ds else (c.toNat : Int) - (d.toNat : Int)

/-- Whether `needle` is written at the start of `s`. -/
def starts_with (needle : List Char) (s : List Char) : Bool :=
  match needle, s with
  | [], _ => true
  | _ :: _, [] => false
  | c :: cs, d :: ds => c == d && starts_with cs ds

/-- `strstr`: the tail of `haystack` that starts at the first occurrence of
`needle`, or `none` (NULL) when there is no occurrence. -/
def strstr (haystack needle : List Char) : Option (List Char) :=
  match haystack with
  | [] => if starts_with needle [] then some [] else none
  | c :: t => if starts_with needle (c :: t) then some (c :: t) else strstr t needle

/-- `get_identifier (name, len)`: the identifier made of the first `len`
characters of `name`. -/
def get_identifier (name : List Char) (len : Nat) : String :=
  String.mk (name.take len)

/-- The literal `"_clone"`. -/
def clone_suffix : List Char := ['_', 'c', 'l', 'o', 'n', 'e']

/-! ## `get_base_name` -/

/-- `get_base_name`: drops a final `"_clone"` from a name that is longer than
`"_clone"`, and returns every other name whole. -/
def get_base_name (name : String) : String :=
  let suffix_len := strlen clone_suffix
  let name_len := strlen name.data
  if name_len > suffix_len ∧ strcmp (name.data.drop (name_len - suffix_len)) clone_suffix = 0 then
    get_identifier name.data (name_len - suffix_len)
  else
    get_identifier name.data name_len

/-! ## `are_functions_equivalent` -/

/-- The statement loop of `are_functions_equivalent`: both iterators advance
together until one of the blocks ends; `false` as soon as two statements
differ, `true` when the loop ends. -/
def stmts_equal {σ : Type} (gimple_stmt_equal_p : σ → σ → Bool) : List σ → List σ → Bool
  | stmt1 :: rest1, stmt2 :: rest2 =>
    if !gimple_stmt_equal_p stmt1 stmt2 then false
    else stmts_equal gimple_stmt_equal_p rest1 rest2
  | _, _ => true

/-- `are_functions_equivalent`: for every block `bb1` of `f1` (outer loop) and
every block `bb2` of `f2` (inner loop) the statement loop runs; the first
mismatch returns `false`, and `true` is returned after the loops. -/
def are_functions_equivalent {σ : Type} (gimple_stmt_equal_p : σ → σ → Bool)
    (f1 f2 : Function σ) : Bool :=
  f1.blocks.all fun bb1 => f2.blocks.all fun bb2 => stmts_equal gimple_stmt_equal_p bb1 bb2

/-! ## The map `cloned_functions` -/

/-- The entries of a `std::map<tree, std::vector<function*> >`, in the order
its iteration visits them. -/
abbrev CloneMap (σ : Type) := List (String × List (Function σ))

/-- Whether the map has an entry for `key`. -/
def map_contains {σ : Type} (m : CloneMap σ) (key : String) : Bool :=
  m.any fun pair => pair.1 == key

/-- Puts a new entry at its place in the key order: before the first entry
whose key is greater. -/
def map_insert {σ : Type} (keyLt : String → String → Bool) (entry : String × List (Function σ)) :
    CloneMap σ → CloneMap σ
  | [] => [entry]
  | pair :: rest =>
    if keyLt entry.1 pair.1 then entry :: pair :: rest
    else pair :: map_insert keyLt entry rest

/-- The statement `cloned_functions[base_name].push_back (f)`: `operator[]` finds the
entry of `base_name`, or inserts one with an empty vector, and `f` is appended
to its vector. -/
def map_push_back {σ : Type} (keyLt : String → String → Bool) (m : CloneMap σ)
    (base_name : String) (f : Function σ) : CloneMap σ :=
  if map_contains m base_name then
    m.map fun pair => if pair.1 == base_name then (pair.1, pair.2 ++ [f]) else pair
  else
    map_insert keyLt (base_name, [] ++ [f]) m

/-! ## `pass_ctyler::execute` -/

/-- What a run of `execute` yields: the value returned, the writes to
`dump_file` in order, and the calls made to `are_functions_equivalent` in
order (first and second argument). -/
structure PassResult (σ : Type) where
  ret : Nat
  out : List (DumpLine σ)
  calls : List (Function σ × Function σ)

/-- The statement loop of the dump, for one block, entered with the running
`stmt_cnt`: the counter after the block and the writes. -/
def dump_stmts {σ : Type} (dump_file : Bool) (stmt_cnt : Nat) : List σ → Nat × List (DumpLine σ)
  | [] => (stmt_cnt, [])
  | g :: rest =>
    let stmt_cnt := stmt_cnt + 1
    let written := if dump_file then [DumpLine.stmt_count stmt_cnt, DumpLine.stmt g] else []
    let r := dump_stmts dump_file stmt_cnt rest
    (r.1, written ++ r.2)

/-- The loop `FOR_EACH_BB_FN (bb, fun)` of the dump, entered with the running
`bb_cnt` and `stmt_cnt`. -/
def dump_blocks {σ : Type} (dump_file : Bool) (bb_cnt stmt_cnt : Nat) :
    List (List σ) → List (DumpLine σ)
  | [] => []
  | bb :: rest =>
    let bb_cnt := bb_cnt + 1
    let written := if dump_file then [DumpLine.bb_count bb_cnt] else []
    let r := dump_stmts dump_file stmt_cnt bb
    written ++ r.2 ++ dump_blocks dump_file bb_cnt r.1 rest

/-- The loop `for (function *f = fun; f; f = f->next)`, entered with the map
built so far: a function whose name contains `"_clone"` is appended to the
entry of its base name, every other function is passed over. -/
def group_clones {σ : Type} (keyLt : String → String → Bool) :
    List (Function σ) → CloneMap σ → CloneMap σ
  | [], cloned_functions => cloned_functions
  | f :: rest, cloned_functions =>
    let name := f.name
    if (strstr name.data clone_suffix).isSome then
      let base_name := get_base_name name
      group_clones keyLt rest (map_push_back keyLt cloned_functions base_name f)
    else
      group_clones keyLt rest cloned_functions

/-- The map `cloned_functions` once the grouping loop has run over `functions`. -/
def cloned_functions {σ : Type} (keyLt : String → String → Bool) (functions : List (Function σ)) :
    CloneMap σ :=
  group_clones keyLt functions []

/-- The loop `for (i = 1; i < pair.second.size (); i++)` over the members after
the first: the final `should_prune` and the calls made.  The loop stops at the
first member that is not equivalent to `base_func`. -/
def compare_clones {σ : Type} (gimple_stmt_equal_p : σ → σ → Bool) (base_func : Function σ) :
    List (Function σ) → Bool × List (Function σ × Function σ)
  | [] => (true, [])
  | clone_func :: rest =>
    if !are_functions_equivalent gimple_stmt_equal_p base_func clone_func then
      (false, [(base_func, clone_func)])
    else
      let r := compare_clones gimple_stmt_equal_p base_func rest
      (r.1, (base_func, clone_func) :: r.2)

/-- The body of the loop over the groups, for the vector `second` of one entry.
The source initialises `base_func` from `pair.second` and compares the members
from index 1 on; `base_func` is the member at index 0. -/
def decide_group {σ : Type} (dump_file : Bool) (gimple_stmt_equal_p : σ → σ → Bool)
    (second : List (Function σ)) : List (DumpLine σ) × List (Function σ × Function σ) :=
  if second.length > 1 then
    match second with
    | [] => ([], [])
    | base_func :: clones =>
      let r := compare_clones gimple_stmt_equal_p base_func clones
      let should_prune := r.1
      if should_prune then
        (if dump_file then [DumpLine.prune base_func.name] else [], r.2)
      else
        (if dump_file then [DumpLine.noprune base_func.name] else [], r.2)
  else
    ([], [])

/-- The loop `for (auto &pair : cloned_functions)`. -/
def decide_groups {σ : Type} (dump_file : Bool) (gimple_stmt_equal_p : σ → σ → Bool) :
    CloneMap σ → List (DumpLine σ) × List (Function σ × Function σ)
  | [] => ([], [])
  | pair :: rest =>
    let d := decide_group dump_file gimple_stmt_equal_p pair.2
    let r := decide_groups dump_file gimple_stmt_equal_p rest
    (d.1 ++ r.1, d.2 ++ r.2)

/-- `pass_ctyler::execute (fun)`.  `fn` is the function `fun` points to and `next`
the functions that follow it through the `next` link; `dump_file` tells whether
a dump file is open. -/
def execute {σ : Type} (keyLt : String → String → Bool) (gimple_stmt_equal_p : σ → σ → Bool)
    (dump_file : Bool) (fn : Function σ) (next : List (Function σ)) : PassResult σ :=
  let banner := if dump_file then [DumpLine.banner] else []
  let dump := dump_blocks dump_file 0 0 fn.blocks
  let groups := cloned_functions keyLt (fn :: next)
  let decided := decide_groups dump_file gimple_stmt_equal_p groups
  { ret := 0, out := banner ++ dump ++ decided.1, calls := decided.2 }

/-! ## Concrete inputs -/

/-- The dictionary order of two character sequences. -/
def chars_lt : List Char → List Char → Bool
  | _, [] => false
  | [], _ :: _ => true
  | c :: cs, d :: ds => if c.toNat < d.toNat then true else if c = d then chars_lt cs ds else false

/-- The key order that compares identifiers as strings. -/
def keyLt_string (a b : String) : Bool := chars_lt a.data b.data

/-- Equality of numbered statements. -/
def eq_nat (a b : Nat) : Bool := a == b

/-- The rendering of a numbered statement. -/
def render_nat (n : Nat) : String := "s" ++ toString n ++ ";\n"

/-- Two blocks of one statement each, the two statements different. -/
def fn_two_blocks : Function Nat := { name := "a_clone_b", blocks := [[1], [2]] }

/-- The clone of `fn_two_blocks`, with the same body. -/
def fn_two_blocks_copy : Function Nat := { name := "a_clone_b_clone", blocks := [[1], [2]] }

/-- A function without blocks. -/
def fn_no_block : Function Nat := { name := "foo_clone", blocks := [] }

/-- One block of one statement. -/
def fn_short : Function Nat := { name := "foo_clone", blocks := [[1]] }

/-- One block of two statements, the first as in `fn_short`. -/
def fn_long : Function Nat := { name := "foo_clone", blocks := [[1, 2]] }

/-! ## Vocabulary of the grouping claims -/

/-- Whether the name of `f` contains `"_clone"`: the test of the grouping loop. -/
def has_clone_marker {σ : Type} (f : Function σ) : Bool :=
  (strstr f.name.data clone_suffix).isSome

/-- Whether the grouping loop files `f` under `key`: the name of `f` contains
`"_clone"` and `get_base_name` of it is `key`. -/
def filed_under {σ : Type} (key : String) (f : Function σ) : Bool :=
  has_clone_marker f && get_base_name f.name == key

/-- The state of the map `m` once the grouping loop has gone through the
functions `seen`. -/
structure Grouped {σ : Type} (m : CloneMap σ) (seen : List (Function σ)) : Prop where
  keys_nodup : (m.map Prod.fst).Nodup
  members : ∀ pair ∈ m, pair.2 = seen.filter (filed_under pair.1)
  nonempty : ∀ pair ∈ m, pair.2 ≠ []
  covered : ∀ f ∈ seen, has_clone_marker f = true → get_base_name f.name ∈ m.map Prod.fst
  perm : (m.flatMap Prod.snd).Perm (seen.filter has_clone_marker)


/-- The original `foo` of the scenarios: one block `[s1, s2]`. -/
def fn_foo : Function Nat := { name := "foo", blocks := [[1, 2]] }

/-- The clone `foo_clone` of the scenarios, with the body of `fn_foo`. -/
def fn_foo_clone : Function Nat := { name := "foo_clone", blocks := [[1, 2]] }

/-- A clone `bar_clone` without an original. -/
def fn_bar_clone : Function Nat := { name := "bar_clone", blocks := [[3]] }

/-- A function whose name holds the marker inside: `a_clone_b`. -/
def fn_inner : Function Nat := { name := "a_clone_b", blocks := [[1, 2]] }

/-- The clone of `fn_inner`, with the same body. -/
def fn_inner_clone : Function Nat := { name := "a_clone_b_clone", blocks := [[1, 2]] }

/-- A second clone named `a_clone_b_clone`, with another body. -/
def fn_inner_other : Function Nat := { name := "a_clone_b_clone", blocks := [[1, 4]] }


/-- The clone `foo_clone` of scenario B: its block is `[s1, s3]`. -/
def fn_foo_clone_b : Function Nat := { name := "foo_clone", blocks := [[1, 3]] }

/-- A function whose only block is empty. -/
def fn_empty_block : Function Nat := { name := "foo_clone", blocks := [[]] }

/-- The positional comparison of the specification (its section 4.3): the two
functions have the same number of blocks, and block `i` of `a` and block `i` of
`b` have the same number of statements and equal statements place by place. -/
def positional_equivalent {σ : Type} (gimple_stmt_equal_p : σ → σ → Bool)
    (a b : Function σ) : Bool :=
  a.blocks.length == b.blocks.length &&
    (a.blocks.zip b.blocks).all fun bbs =>
      bbs.1.length == bbs.2.length && (bbs.1.zip bbs.2).all fun ss => gimple_stmt_equal_p ss.1 ss.2


/-- Whether a write is a block header (`Basic block count`). -/
def DumpLine.isBlockHeader {σ : Type} : DumpLine σ → Bool
  | .bb_count _ => true
  | _ => false

/-- The two writes of the dump for the statement `g` numbered `index`:
the `Statement count` line and the rendering of `g`. -/
def stmt_lines {σ : Type} (index : Nat) (g : σ) : List (DumpLine σ) :=
  [DumpLine.stmt_count index, DumpLine.stmt g]


/-- A function `z_clone_b`, met before `a_clone_b` in the unit that shows the
order of the verdicts. -/
def fn_late : Function Nat := { name := "z_clone_b", blocks := [[1, 2]] }

/-- The clone of `fn_late`, with the same body. -/
def fn_late_clone : Function Nat := { name := "z_clone_b_clone", blocks := [[1, 2]] }

/-! ## Lemmas on the comparison -/

theorem stmts_equal_get {σ : Type} (p : σ → σ → Bool) :
    ∀ (bb1 bb2 : List σ), stmts_equal p bb1 bb2 = true →
      ∀ (j : Nat) (s1 s2 : σ), bb1[j]? = some s1 → bb2[j]? = some s2 → p s1 s2 = true
  | [], _, _, j, s1, s2, h1, _ => by simp at h1
  | _ :: _, [], _, j, s1, s2, _, h2 => by simp at h2
  | x :: xs, y :: ys, h, j, s1, s2, h1, h2 => by
    unfold stmts_equal at h
    cases hxy : p x y with
    | false => simp [hxy] at h
    | true =>
      simp only [hxy, Bool.not_true, Bool.false_eq_true, if_false] at h
      cases j with
      | zero =>
        simp only [List.getElem?_cons_zero, Option.some.injEq] at h1 h2
        subst h1; subst h2; exact hxy
      | succ j =>
        simp only [List.getElem?_cons_succ] at h1 h2
        exact stmts_equal_get p xs ys h j s1 s2 h1 h2

theorem stmts_equal_comm {σ : Type} (p : σ → σ → Bool) (hsym : ∀ x y, p x y = p y x) :
    ∀ (bb1 bb2 : List σ), stmts_equal p bb1 bb2 = stmts_equal p bb2 bb1
  | [], [] => by simp [stmts_equal]
  | [], _ :: _ => by simp [stmts_equal]
  | _ :: _, [] => by simp [stmts_equal]
  | x :: xs, y :: ys => by
    simp only [stmts_equal]
    rw [hsym x y, stmts_equal_comm p hsym xs ys]

theorem are_functions_equivalent_iff {σ : Type} (p : σ → σ → Bool) (f1 f2 : Function σ) :
    are_functions_equivalent p f1 f2 = true ↔
      ∀ bb1 ∈ f1.blocks, ∀ bb2 ∈ f2.blocks, stmts_equal p bb1 bb2 = true := by
  simp [are_functions_equivalent, List.all_eq_true]

/-! ## Claims on `are_functions_equivalent` -/

/-- C1 fails on the code.  `fn_two_blocks` and `fn_two_blocks_copy` have the same
number of blocks, the same number of statements in each block and equal
statements at every corresponding place, yet `are_functions_equivalent` returns
`false`: the block loops pair block 0 of the first with block 1 of the second.
Run on the unit made of the two, `execute` ends with `NOPRUNE: a_clone_b`. -/
theorem are_functions_equivalent_same_body_false :
    List.Forall₂ (List.Forall₂ fun s1 s2 => eq_nat s1 s2 = true)
        fn_two_blocks.blocks fn_two_blocks_copy.blocks
      ∧ are_functions_equivalent eq_nat fn_two_blocks fn_two_blocks_copy = false
      ∧ (execute keyLt_string eq_nat true fn_two_blocks [fn_two_blocks_copy]).out.getLast?
          = some (DumpLine.noprune "a_clone_b") := by
  refine ⟨?_, by decide, by decide⟩
  simp [fn_two_blocks, fn_two_blocks_copy, eq_nat]

/-- C2 as stated fails on the code: functions that differ in the number of
blocks, or in the number of statements of block 0, are reported equivalent. -/
theorem are_functions_equivalent_counts_ignored :
    (fn_no_block.blocks.length ≠ fn_short.blocks.length
        ∧ are_functions_equivalent eq_nat fn_no_block fn_short = true)
      ∧ (fn_short.blocks.length = fn_long.blocks.length
        ∧ (fn_short.blocks.map List.length)[0]? ≠ (fn_long.blocks.map List.length)[0]?
        ∧ are_functions_equivalent eq_nat fn_short fn_long = true) := by
  decide

/-- C2, amended: when the statement equality is false for statement `j` of
block `i` of `a` against statement `j` of block `i` of `b`,
`are_functions_equivalent a b` returns `false`. -/
theorem are_functions_equivalent_false_of_mismatch {σ : Type} (p : σ → σ → Bool)
    (a b : Function σ) (i j : Nat) (bb1 bb2 : List σ) (s1 s2 : σ)
    (hb1 : a.blocks[i]? = some bb1) (hb2 : b.blocks[i]? = some bb2)
    (hs1 : bb1[j]? = some s1) (hs2 : bb2[j]? = some s2) (hne : p s1 s2 = false) :
    are_functions_equivalent p a b = false := by
  cases h : are_functions_equivalent p a b with
  | false => rfl
  | true =>
    have hall := (are_functions_equivalent_iff p a b).1 h
    have hm1 : bb1 ∈ a.blocks := List.getElem?_mem hb1
    have hm2 : bb2 ∈ b.blocks := List.getElem?_mem hb2
    have := stmts_equal_get p bb1 bb2 (hall bb1 hm1 bb2 hm2) j s1 s2 hs1 hs2
    rw [hne] at this
    exact absurd this (by decide)

/-- Witness of `are_functions_equivalent_false_of_mismatch`: blocks `[1, 2]` and
`[1, 3]` differ at statement 1 of block 0. -/
theorem are_functions_equivalent_false_of_mismatch_witness :
    are_functions_equivalent eq_nat
      ({ name := "foo_clone", blocks := [[1, 2]] } : Function Nat)
      { name := "foo_clone", blocks := [[1, 3]] } = false :=
  are_functions_equivalent_false_of_mismatch eq_nat _ _ 0 1 [1, 2] [1, 3] 2 3
    (by decide) (by decide) (by decide) (by decide) (by decide)

/-- C3 fails on the code.  The statement equality `eq_nat` is reflexive, yet
`fn_two_blocks` is not equivalent to itself: block 0 is compared with block 1. -/
theorem are_functions_equivalent_not_reflexive :
    (∀ s : Nat, eq_nat s s = true)
      ∧ are_functions_equivalent eq_nat fn_two_blocks fn_two_blocks = false := by
  refine ⟨?_, by decide⟩
  intro s
  simp [eq_nat]

/-- C4: with a symmetric statement equality, `are_functions_equivalent a b` and
`are_functions_equivalent b a` return the same value. -/
theorem are_functions_equivalent_symmetric {σ : Type} (p : σ → σ → Bool)
    (hsym : ∀ x y, p x y = p y x) (a b : Function σ) :
    are_functions_equivalent p a b = are_functions_equivalent p b a := by
  rw [Bool.eq_iff_iff, are_functions_equivalent_iff, are_functions_equivalent_iff]
  constructor
  · intro h bb2 h2 bb1 h1
    rw [stmts_equal_comm p hsym bb2 bb1]
    exact h bb1 h1 bb2 h2
  · intro h bb1 h1 bb2 h2
    rw [stmts_equal_comm p hsym bb1 bb2]
    exact h bb2 h2 bb1 h1

/-- Witness of `are_functions_equivalent_symmetric`: `eq_nat` is symmetric, and
the two orders of `fn_short` and `fn_two_blocks` agree (both `false`). -/
theorem are_functions_equivalent_symmetric_witness :
    are_functions_equivalent eq_nat fn_short fn_two_blocks
      = are_functions_equivalent eq_nat fn_two_blocks fn_short :=
  are_functions_equivalent_symmetric eq_nat
    (fun x y => by simp [eq_nat, eq_comm]) fn_short fn_two_blocks

/-! ## Lemmas on the string helpers -/

theorem char_toNat_sub_ne_zero (c d : Char) (h : c ≠ d) : (c.toNat : Int) - (d.toNat : Int) ≠ 0 := by
  intro h0
  apply h
  have h1 : c.toNat = d.toNat := by omega
  rw [← Char.ofNat_toNat c, ← Char.ofNat_toNat d, h1]

theorem strcmp_eq_zero_iff : ∀ (a b : List Char), a.length = b.length → (strcmp a b = 0 ↔ a = b)
  | [], [], _ => by simp [strcmp]
  | [], _ :: _, h => by simp at h
  | _ :: _, [], h => by simp at h
  | c :: cs, d :: ds, h => by
    have hlen : cs.length = ds.length := by simpa using h
    unfold strcmp
    by_cases hcd : c = d
    · simp [hcd, strcmp_eq_zero_iff cs ds hlen]
    · simp [hcd, char_toNat_sub_ne_zero c d hcd]

theorem starts_with_iff : ∀ (needle s : List Char),
    starts_with needle s = true ↔ ∃ post, s = needle ++ post
  | [], s => by simp [starts_with]
  | _ :: _, [] => by simp [starts_with]
  | c :: cs, d :: ds => by
    unfold starts_with
    simp only [Bool.and_eq_true, beq_iff_eq, starts_with_iff cs ds, List.cons_append,
      List.cons.injEq]
    constructor
    · rintro ⟨h, post, hp⟩
      exact ⟨post, h.symm, hp⟩
    · rintro ⟨post, h, hp⟩
      exact ⟨h.symm, post, hp⟩

theorem strstr_isSome_iff (needle : List Char) : ∀ (haystack : List Char),
    (strstr haystack needle).isSome = true ↔ ∃ pre post, haystack = pre ++ needle ++ post
  | [] => by
    unfold strstr
    by_cases h : starts_with needle [] = true
    · rw [if_pos h]
      simp only [Option.isSome_some, true_iff]
      obtain ⟨post, hp⟩ := (starts_with_iff needle []).1 h
      exact ⟨[], post, by simpa using hp⟩
    · rw [if_neg h]
      simp only [Option.isSome_none, Bool.false_eq_true, false_iff]
      rintro ⟨pre, post, hp⟩
      apply h
      rw [starts_with_iff]
      have h1 : pre ++ needle ++ post = [] := hp.symm
      simp only [List.append_eq_nil] at h1
      exact ⟨post, by simp [h1.1.2, h1.2]⟩
  | c :: t => by
    unfold strstr
    by_cases h : starts_with needle (c :: t) = true
    · rw [if_pos h]
      simp only [Option.isSome_some, true_iff]
      obtain ⟨post, hp⟩ := (starts_with_iff needle (c :: t)).1 h
      exact ⟨[], post, by simpa using hp⟩
    · rw [if_neg h, strstr_isSome_iff needle t]
      constructor
      · rintro ⟨pre, post, hp⟩
        exact ⟨c :: pre, post, by simp [hp]⟩
      · rintro ⟨pre, post, hp⟩
        cases pre with
        | nil =>
          exfalso
          apply h
          rw [starts_with_iff]
          exact ⟨post, by simpa using hp⟩
        | cons x pre =>
          simp only [List.cons_append, List.cons.injEq] at hp
          exact ⟨pre, post, hp.2⟩

theorem get_base_name_data (name : String) :
    (get_base_name name).data =
      if 6 < name.data.length ∧ name.data.drop (name.data.length - 6) = clone_suffix then
        name.data.take (name.data.length - 6)
      else name.data := by
  have h6 : clone_suffix.length = 6 := rfl
  unfold get_base_name
  simp only [strlen, get_identifier, h6, gt_iff_lt, List.take_length]
  by_cases hlt : 6 < name.data.length
  · have hl : (name.data.drop (name.data.length - 6)).length = clone_suffix.length := by
      rw [List.length_drop, h6]
      omega
    by_cases hs : name.data.drop (name.data.length - 6) = clone_suffix
    · rw [if_pos ⟨hlt, (strcmp_eq_zero_iff _ _ hl).2 hs⟩, if_pos ⟨hlt, hs⟩]
    · rw [if_neg fun hc => hs ((strcmp_eq_zero_iff _ _ hl).1 hc.2), if_neg fun hc => hs hc.2]
  · rw [if_neg fun hc => hlt hc.1, if_neg fun hc => hlt hc.1]

theorem get_base_name_append_clone (base : String) (h : base ≠ "") :
    get_base_name (base ++ "_clone") = base := by
  apply String.ext
  rw [get_base_name_data]
  have hd : (base ++ "_clone").data = base.data ++ clone_suffix := by
    rw [String.data_append]; rfl
  have hne : base.data ≠ [] := fun h0 => h (String.ext h0)
  have hpos : 0 < base.data.length := List.length_pos.2 hne
  have h6 : clone_suffix.length = 6 := rfl
  rw [hd, List.length_append, h6, Nat.add_sub_cancel, List.drop_left, List.take_left]
  exact if_pos ⟨by omega, rfl⟩

theorem get_base_name_of_not_suffix (name : String)
    (h : ¬ ∃ base : String, name = base ++ "_clone") : get_base_name name = name := by
  apply String.ext
  rw [get_base_name_data]
  split
  · next hc =>
    exfalso
    apply h
    refine ⟨String.mk (name.data.take (name.data.length - 6)), String.ext ?_⟩
    rw [String.data_append]
    have : ("_clone" : String).data = clone_suffix := rfl
    rw [this, ← hc.2]
    exact (List.take_append_drop _ _).symm
  · rfl

/-! ## Claims on `get_base_name` -/

/-- C7 as stated fails on the code at the identifier that is exactly `"_clone"`:
it ends with `"_clone"`, but `get_base_name` returns it whole, not the empty
identifier. -/
theorem get_base_name_clone_alone :
    ("_clone" : String) = "" ++ "_clone" ∧ get_base_name "_clone" = "_clone"
      ∧ get_base_name "_clone" ≠ "" := by
  decide

/-- C7, amended: `get_base_name` removes the trailing `"_clone"` from a name
that ends with `"_clone"` and is longer than `"_clone"`; it returns the name
unchanged when the name is exactly `"_clone"` and when it does not end with
`"_clone"`. -/
theorem get_base_name_strips_suffix (name : String) :
    (∀ base : String, base ≠ "" → name = base ++ "_clone" → get_base_name name = base)
      ∧ (name = "_clone" → get_base_name name = name)
      ∧ ((¬ ∃ base : String, name = base ++ "_clone") → get_base_name name = name) := by
  refine ⟨?_, ?_, get_base_name_of_not_suffix name⟩
  · intro base hb hn
    rw [hn]
    exact get_base_name_append_clone base hb
  · intro hn
    rw [hn]
    decide


/-! ## Lemmas on the map and the grouping loop -/

theorem map_contains_iff {σ : Type} (m : CloneMap σ) (key : String) :
    map_contains m key = true ↔ key ∈ m.map Prod.fst := by
  simp only [map_contains, List.any_eq_true, beq_iff_eq, List.mem_map]

theorem map_insert_perm {σ : Type} (keyLt : String → String → Bool)
    (entry : String × List (Function σ)) :
    ∀ m : CloneMap σ, (map_insert keyLt entry m).Perm (entry :: m)
  | [] => List.Perm.refl _
  | pair :: rest => by
    unfold map_insert
    split
    · exact List.Perm.refl _
    · exact ((map_insert_perm keyLt entry rest).cons pair).trans (List.Perm.swap entry pair rest)

theorem map_update_keys {σ : Type} (key : String) (f : Function σ) (m : CloneMap σ) :
    (m.map fun pair => if pair.1 == key then (pair.1, pair.2 ++ [f]) else pair).map Prod.fst
      = m.map Prod.fst := by
  rw [List.map_map]
  apply List.map_congr_left
  intro pair _
  show (if pair.1 == key then (pair.1, pair.2 ++ [f]) else pair).1 = pair.1
  split <;> rfl

theorem map_update_of_not_mem {σ : Type} (key : String) (f : Function σ) :
    ∀ m : CloneMap σ, key ∉ m.map Prod.fst →
      (m.map fun pair => if pair.1 == key then (pair.1, pair.2 ++ [f]) else pair) = m
  | [], _ => rfl
  | pair :: rest, h => by
    simp only [List.map_cons, List.mem_cons, not_or] at h
    have hne : ¬ (pair.1 == key) = true := by
      rw [beq_iff_eq]
      exact fun e => h.1 e.symm
    simp only [List.map_cons]
    rw [if_neg hne, map_update_of_not_mem key f rest h.2]

theorem map_update_flatMap_perm {σ : Type} (key : String) (f : Function σ) :
    ∀ m : CloneMap σ, (m.map Prod.fst).Nodup → key ∈ m.map Prod.fst →
      ((m.map fun pair => if pair.1 == key then (pair.1, pair.2 ++ [f]) else pair).flatMap
        Prod.snd).Perm (m.flatMap Prod.snd ++ [f])
  | [], _, h => by simp at h
  | pair :: rest, hnd, hk => by
    simp only [List.map_cons, List.nodup_cons] at hnd
    simp only [List.map_cons, List.flatMap_cons, List.append_assoc]
    by_cases hp : pair.1 = key
    · have hrest : key ∉ rest.map Prod.fst := hp ▸ hnd.1
      have hb : (pair.1 == key) = true := by rw [beq_iff_eq]; exact hp
      rw [map_update_of_not_mem key f rest hrest, if_pos hb]
      simp only [List.append_assoc]
      exact List.Perm.append_left _ List.perm_append_comm
    · have hk2 : key ∈ rest.map Prod.fst := by
        simp only [List.map_cons, List.mem_cons] at hk
        rcases hk with hk | hk
        · exact absurd hk.symm hp
        · exact hk
      have hb : ¬ (pair.1 == key) = true := by rw [beq_iff_eq]; exact hp
      rw [if_neg hb]
      exact List.Perm.append_left _ (map_update_flatMap_perm key f rest hnd.2 hk2)

theorem filed_under_iff {σ : Type} (key : String) (f : Function σ) :
    filed_under key f = true ↔ has_clone_marker f = true ∧ get_base_name f.name = key := by
  simp [filed_under]

theorem grouped_skip {σ : Type} (m : CloneMap σ) (seen : List (Function σ)) (f : Function σ)
    (hg : Grouped m seen) (hf : has_clone_marker f = false) : Grouped m (seen ++ [f]) := by
  have hnot : ∀ key, filed_under key f = false := by
    intro key
    simp [filed_under, hf]
  refine ⟨hg.keys_nodup, ?_, hg.nonempty, ?_, ?_⟩
  · intro pair hp
    rw [List.filter_append, hg.members pair hp]
    simp [hnot]
  · intro g hgm hc
    rcases List.mem_append.1 hgm with h | h
    · exact hg.covered g h hc
    · simp only [List.mem_singleton] at h
      rw [h, hf] at hc
      exact absurd hc (by decide)
  · rw [List.filter_append]
    simpa [hf] using hg.perm

theorem grouped_push_back {σ : Type} (keyLt : String → String → Bool) (m : CloneMap σ)
    (seen : List (Function σ)) (f : Function σ) (hg : Grouped m seen)
    (hf : has_clone_marker f = true) :
    Grouped (map_push_back keyLt m (get_base_name f.name) f) (seen ++ [f]) := by
  have hself : filed_under (get_base_name f.name) f = true := by
    simp [filed_under, hf]
  unfold map_push_back
  by_cases hc : map_contains m (get_base_name f.name) = true
  · rw [if_pos hc]
    have hk := (map_contains_iff m _).1 hc
    refine ⟨?_, ?_, ?_, ?_, ?_⟩
    · rw [map_update_keys]
      exact hg.keys_nodup
    · intro pair hp
      obtain ⟨q, hq, rfl⟩ := List.mem_map.1 hp
      rw [List.filter_append]
      by_cases hqk : q.1 = get_base_name f.name
      · simp only [beq_iff_eq, hqk, if_true]
        rw [← hqk, hg.members q hq, hqk]
        simp [hself]
      · have hno : filed_under q.1 f = false := by
          cases h : filed_under q.1 f with
          | false => rfl
          | true => exact absurd ((filed_under_iff _ _).1 h).2.symm hqk
        simp only [beq_iff_eq, hqk, if_false]
        rw [hg.members q hq]
        simp [hno]
    · intro pair hp
      obtain ⟨q, hq, rfl⟩ := List.mem_map.1 hp
      split
      · simp
      · exact hg.nonempty q hq
    · intro g hgm hgc
      rw [map_update_keys]
      rcases List.mem_append.1 hgm with h | h
      · exact hg.covered g h hgc
      · simp only [List.mem_singleton] at h
        rw [h]
        exact hk
    · rw [List.filter_append]
      have : [f].filter has_clone_marker = [f] := by simp [hf]
      rw [this]
      exact (map_update_flatMap_perm _ f m hg.keys_nodup hk).trans
        (List.Perm.append_right _ hg.perm)
  · rw [if_neg hc]
    have hk : get_base_name f.name ∉ m.map Prod.fst := fun h => hc ((map_contains_iff m _).2 h)
    have hperm := map_insert_perm keyLt (get_base_name f.name, [] ++ [f]) m
    have hnone : seen.filter (filed_under (get_base_name f.name)) = [] := by
      rw [List.filter_eq_nil_iff]
      intro g hgm hgf
      have := (filed_under_iff _ _).1 hgf
      exact hk (this.2 ▸ hg.covered g hgm this.1)
    refine ⟨?_, ?_, ?_, ?_, ?_⟩
    · rw [(hperm.map Prod.fst).nodup_iff]
      simp only [List.map_cons, List.nodup_cons]
      exact ⟨hk, hg.keys_nodup⟩
    · intro pair hp
      rw [List.filter_append]
      rcases List.mem_cons.1 (hperm.subset hp) with h | h
      · rw [h]
        simp [hnone, hself]
      · have hne : pair.1 ≠ get_base_name f.name := by
          intro e
          exact hk (e ▸ List.mem_map_of_mem Prod.fst h)
        have hno : filed_under pair.1 f = false := by
          cases h2 : filed_under pair.1 f with
          | false => rfl
          | true => exact absurd ((filed_under_iff _ _).1 h2).2.symm hne
        rw [hg.members pair h]
        simp [hno]
    · intro pair hp
      rcases List.mem_cons.1 (hperm.subset hp) with h | h
      · rw [h]
        simp
      · exact hg.nonempty pair h
    · intro g hgm hgc
      rw [(hperm.map Prod.fst).mem_iff]
      simp only [List.map_cons, List.mem_cons]
      rcases List.mem_append.1 hgm with h | h
      · exact Or.inr (hg.covered g h hgc)
      · simp only [List.mem_singleton] at h
        rw [h]
        exact Or.inl rfl
    · rw [List.filter_append]
      have : [f].filter has_clone_marker = [f] := by simp [hf]
      rw [this]
      refine (hperm.flatMap_right Prod.snd).trans ?_
      simp only [List.flatMap_cons, List.nil_append]
      exact List.perm_append_comm.trans (List.Perm.append_right _ hg.perm)

theorem grouped_group_clones {σ : Type} (keyLt : String → String → Bool) :
    ∀ (rest seen : List (Function σ)) (m : CloneMap σ), Grouped m seen →
      Grouped (group_clones keyLt rest m) (seen ++ rest)
  | [], seen, m, hg => by simpa [group_clones] using hg
  | f :: rest, seen, m, hg => by
    have happ : seen ++ f :: rest = (seen ++ [f]) ++ rest := by simp
    rw [happ]
    unfold group_clones
    by_cases hf : has_clone_marker f = true
    · have hc : (strstr f.name.data clone_suffix).isSome = true := hf
      simp only [hc, if_true]
      exact grouped_group_clones keyLt rest _ _ (grouped_push_back keyLt m seen f hg hf)
    · have hc : ¬ (strstr f.name.data clone_suffix).isSome = true := hf
      simp only [hc, if_false]
      have hf2 : has_clone_marker f = false := by simpa using hf
      exact grouped_group_clones keyLt rest _ _ (grouped_skip m seen f hg hf2)

theorem grouped_cloned_functions {σ : Type} (keyLt : String → String → Bool)
    (functions : List (Function σ)) : Grouped (cloned_functions keyLt functions) functions := by
  have h0 : Grouped ([] : CloneMap σ) [] :=
    ⟨List.nodup_nil, by simp, by simp, by simp, by simp⟩
  simpa [cloned_functions] using grouped_group_clones keyLt functions [] [] h0


/-! ## Claims on the grouping step -/

/-- C6 as stated fails on the code: in the unit `foo`, `foo_clone` the function
`foo` is in no group, because its name does not contain `"_clone"`. -/
theorem grouping_leaves_out_original :
    fn_foo ∈ [fn_foo, fn_foo_clone]
      ∧ ∀ pair ∈ cloned_functions keyLt_string [fn_foo, fn_foo_clone], fn_foo ∉ pair.2 := by
  decide

/-- C6, amended: the grouping step partitions the functions whose name contains
`"_clone"`.  The keys of `cloned_functions` are pairwise different, the groups
taken together hold each such function exactly as often as the unit does, and
a function whose name does not contain `"_clone"` is in no group. -/
theorem grouping_partitions_marked {σ : Type} (keyLt : String → String → Bool)
    (functions : List (Function σ)) :
    ((cloned_functions keyLt functions).map Prod.fst).Nodup
      ∧ ((cloned_functions keyLt functions).flatMap Prod.snd).Perm
          (functions.filter has_clone_marker)
      ∧ (∀ f ∈ functions, has_clone_marker f = true →
          ∃ pair ∈ cloned_functions keyLt functions, f ∈ pair.2)
      ∧ (∀ f, has_clone_marker f = false →
          ∀ pair ∈ cloned_functions keyLt functions, f ∉ pair.2) := by
  have hg := grouped_cloned_functions keyLt functions
  refine ⟨hg.keys_nodup, hg.perm, ?_, ?_⟩
  · intro f hf hc
    have hmem : f ∈ (cloned_functions keyLt functions).flatMap Prod.snd :=
      hg.perm.mem_iff.2 (List.mem_filter.2 ⟨hf, hc⟩)
    obtain ⟨pair, hp, hfp⟩ := List.mem_flatMap.1 hmem
    exact ⟨pair, hp, hfp⟩
  · intro f hc pair hp hfp
    rw [hg.members pair hp] at hfp
    have := ((filed_under_iff _ _).1 (List.mem_filter.1 hfp).2).1
    rw [hc] at this
    exact absurd this (by decide)

/-- C8 as stated fails on the code: for the identifiers `foo`, `foo_clone`,
`bar_clone` the group keyed `foo` holds `foo_clone` alone; `foo` is not in it. -/
theorem grouping_foo_without_original :
    fn_foo_clone.name = fn_foo.name ++ "_clone"
      ∧ cloned_functions keyLt_string [fn_foo, fn_foo_clone, fn_bar_clone]
          = [("bar", [fn_bar_clone]), ("foo", [fn_foo_clone])]
      ∧ ∀ pair ∈ cloned_functions keyLt_string [fn_foo, fn_foo_clone, fn_bar_clone],
          fn_foo ∉ pair.2 := by
  decide

/-- C8, amended: for a non-empty identifier `n` that does not end with `"_clone"`
and a unit with a function `f` named `n` and a function `g` named `n ++ "_clone"`,
the group keyed `n` exists and holds the clone `g`; it holds the original `f`
exactly when `n` itself contains `"_clone"`; its members are the functions of the
unit filed under `n`, in encounter order. -/
theorem clone_grouped_under_base {σ : Type} (keyLt : String → String → Bool)
    (functions : List (Function σ)) (n : String) (f g : Function σ)
    (hn : n ≠ "") (hsuf : ¬ ∃ base : String, n = base ++ "_clone")
    (hf : f ∈ functions) (hfn : f.name = n)
    (hg : g ∈ functions) (hgn : g.name = n ++ "_clone") :
    ∃ members, (n, members) ∈ cloned_functions keyLt functions
      ∧ g ∈ members
      ∧ (f ∈ members ↔ has_clone_marker f = true)
      ∧ members = functions.filter (filed_under n)
      ∧ members.Sublist functions := by
  have hgr := grouped_cloned_functions keyLt functions
  have hgc : has_clone_marker g = true := by
    unfold has_clone_marker
    rw [strstr_isSome_iff, hgn, String.data_append]
    exact ⟨n.data, [], by simp; rfl⟩
  have hgb : get_base_name g.name = n := by
    rw [hgn]
    exact get_base_name_append_clone n hn
  have hfb : get_base_name f.name = n := by
    rw [hfn]
    exact get_base_name_of_not_suffix n hsuf
  have hkey := hgr.covered g hg hgc
  rw [hgb] at hkey
  obtain ⟨pair, hp, hpk⟩ := List.mem_map.1 hkey
  have hmem := hgr.members pair hp
  rw [hpk] at hmem
  have hpair : pair = (n, pair.2) := by rw [← hpk]
  refine ⟨pair.2, hpair ▸ hp, ?_, ?_, hmem, ?_⟩
  · rw [hmem]
    exact List.mem_filter.2 ⟨hg, (filed_under_iff _ _).2 ⟨hgc, hgb⟩⟩
  · rw [hmem, List.mem_filter, filed_under_iff]
    exact ⟨fun h => h.2.1, fun h => ⟨hf, h, hfb⟩⟩
  · rw [hmem]
    exact List.filter_sublist _

/-- Witness of `clone_grouped_under_base`: the identifiers `foo`, `foo_clone`,
`bar_clone`, with `n` the identifier `foo`. -/
theorem clone_grouped_under_base_witness :
    ∃ members, ("foo", members) ∈ cloned_functions keyLt_string [fn_foo, fn_foo_clone, fn_bar_clone]
      ∧ fn_foo_clone ∈ members
      ∧ (fn_foo ∈ members ↔ has_clone_marker fn_foo = true)
      ∧ members = [fn_foo, fn_foo_clone, fn_bar_clone].filter (filed_under "foo")
      ∧ members.Sublist [fn_foo, fn_foo_clone, fn_bar_clone] :=
  clone_grouped_under_base keyLt_string [fn_foo, fn_foo_clone, fn_bar_clone] "foo"
    fn_foo fn_foo_clone (by decide)
    (by
      rintro ⟨base, h⟩
      have hl := congrArg String.length h
      rw [String.length_append] at hl
      have h3 : ("foo" : String).length = 3 := by decide
      have h6 : ("_clone" : String).length = 6 := by decide
      omega)
    (by decide) rfl (by decide) (by decide)


/-! ## Lemmas on the dump and the decision loop -/

theorem dump_stmts_not_verdict {σ : Type} (dump_file : Bool) :
    ∀ (bb : List σ) (stmt_cnt : Nat), ∀ line ∈ (dump_stmts dump_file stmt_cnt bb).2,
      line.isVerdict = false
  | [], _, line, h => by simp [dump_stmts] at h
  | g :: rest, stmt_cnt, line, h => by
    simp only [dump_stmts, List.mem_append] at h
    rcases h with h | h
    · cases dump_file with
      | false => simp at h
      | true =>
        simp only [if_true, List.mem_cons, List.mem_singleton, List.not_mem_nil, or_false] at h
        rcases h with h | h <;> rw [h] <;> rfl
    · exact dump_stmts_not_verdict dump_file rest _ line h

theorem dump_blocks_not_verdict {σ : Type} (dump_file : Bool) :
    ∀ (blocks : List (List σ)) (bb_cnt stmt_cnt : Nat),
      ∀ line ∈ dump_blocks dump_file bb_cnt stmt_cnt blocks, line.isVerdict = false
  | [], _, _, line, h => by simp [dump_blocks] at h
  | bb :: rest, bb_cnt, stmt_cnt, line, h => by
    simp only [dump_blocks, List.mem_append] at h
    rcases h with (h | h) | h
    · cases dump_file with
      | false => simp at h
      | true =>
        simp only [if_true, List.mem_singleton] at h
        rw [h]; rfl
    · exact dump_stmts_not_verdict dump_file bb _ line h
    · exact dump_blocks_not_verdict dump_file rest _ _ line h

theorem compare_clones_iff {σ : Type} (p : σ → σ → Bool) (base_func : Function σ) :
    ∀ clones : List (Function σ), (compare_clones p base_func clones).1 = true ↔
      ∀ m ∈ clones, are_functions_equivalent p base_func m = true
  | [] => by simp [compare_clones]
  | clone_func :: rest => by
    unfold compare_clones
    cases h : are_functions_equivalent p base_func clone_func with
    | false => simp [h]
    | true => simp [h, compare_clones_iff p base_func rest]

theorem compare_clones_calls {σ : Type} (p : σ → σ → Bool) (base_func : Function σ) :
    ∀ clones : List (Function σ), ∀ call ∈ (compare_clones p base_func clones).2,
      call.1 = base_func ∧ call.2 ∈ clones
  | [], call, h => by simp [compare_clones] at h
  | clone_func :: rest, call, h => by
    unfold compare_clones at h
    cases hq : are_functions_equivalent p base_func clone_func with
    | false =>
      simp only [hq, Bool.not_false, if_true, List.mem_singleton] at h
      rw [h]
      exact ⟨rfl, List.mem_cons_self _ _⟩
    | true =>
      simp only [hq, Bool.not_true, Bool.false_eq_true, if_false, List.mem_cons] at h
      rcases h with h | h
      · rw [h]
        exact ⟨rfl, List.mem_cons_self _ _⟩
      · have := compare_clones_calls p base_func rest call h
        exact ⟨this.1, List.mem_cons_of_mem _ this.2⟩

theorem decide_group_small {σ : Type} (dump_file : Bool) (p : σ → σ → Bool)
    (second : List (Function σ)) (h : second.length ≤ 1) :
    decide_group dump_file p second = ([], []) := by
  unfold decide_group
  rw [if_neg (by omega)]

theorem decide_group_large {σ : Type} (p : σ → σ → Bool) (base_func : Function σ)
    (clones : List (Function σ)) (h : clones ≠ []) :
    decide_group true p (base_func :: clones)
      = ([if (compare_clones p base_func clones).1 = true then DumpLine.prune base_func.name
          else DumpLine.noprune base_func.name], (compare_clones p base_func clones).2) := by
  have hlen : (base_func :: clones).length > 1 := by
    have := List.length_pos.2 h
    simp only [List.length_cons]
    omega
  unfold decide_group
  rw [if_pos hlen]
  simp only [if_true]
  split <;> rfl

theorem decide_groups_out_mem {σ : Type} (dump_file : Bool) (p : σ → σ → Bool) :
    ∀ (m : CloneMap σ) (line : DumpLine σ), line ∈ (decide_groups dump_file p m).1 ↔
      ∃ pair ∈ m, line ∈ (decide_group dump_file p pair.2).1
  | [], line => by simp [decide_groups]
  | pair :: rest, line => by
    simp only [decide_groups, List.mem_append, decide_groups_out_mem dump_file p rest line,
      List.mem_cons, exists_eq_or_imp]

theorem decide_groups_calls_mem {σ : Type} (dump_file : Bool) (p : σ → σ → Bool) :
    ∀ (m : CloneMap σ) (call : Function σ × Function σ),
      call ∈ (decide_groups dump_file p m).2 ↔
        ∃ pair ∈ m, call ∈ (decide_group dump_file p pair.2).2
  | [], call => by simp [decide_groups]
  | pair :: rest, call => by
    simp only [decide_groups, List.mem_append, decide_groups_calls_mem dump_file p rest call,
      List.mem_cons, exists_eq_or_imp]

theorem decide_group_line {σ : Type} (p : σ → σ → Bool) (second : List (Function σ))
    (line : DumpLine σ) (h : line ∈ (decide_group true p second).1) :
    ∃ base_func clones, second = base_func :: clones ∧ clones ≠ []
      ∧ line = if (compare_clones p base_func clones).1 = true
          then DumpLine.prune base_func.name else DumpLine.noprune base_func.name := by
  by_cases hlen : second.length ≤ 1
  · rw [decide_group_small true p second hlen] at h
    simp at h
  · cases second with
    | nil => simp at hlen
    | cons base_func clones =>
      have hne : clones ≠ [] := by
        intro e
        rw [e] at hlen
        simp at hlen
      rw [decide_group_large p base_func clones hne] at h
      exact ⟨base_func, clones, rfl, hne, List.mem_singleton.1 h⟩

theorem decide_groups_verdict {σ : Type} (dump_file : Bool) (p : σ → σ → Bool)
    (m : CloneMap σ) : ∀ line ∈ (decide_groups dump_file p m).1, line.isVerdict = true := by
  intro line h
  obtain ⟨pair, _, hl⟩ := (decide_groups_out_mem dump_file p m line).1 h
  unfold decide_group at hl
  by_cases hlen : pair.2.length > 1
  · rw [if_pos hlen] at hl
    cases hsec : pair.2 with
    | nil =>
      rw [hsec] at hl
      simp at hl
    | cons base_func clones =>
      rw [hsec] at hl
      cases hc : (compare_clones p base_func clones).1 <;> cases dump_file <;>
        simp [hc] at hl <;> (rw [hl]; rfl)
  · rw [if_neg hlen] at hl
    simp at hl

theorem execute_out_verdicts {σ : Type} (keyLt : String → String → Bool) (p : σ → σ → Bool)
    (dump_file : Bool) (fn : Function σ) (next : List (Function σ)) :
    (execute keyLt p dump_file fn next).out.filter DumpLine.isVerdict
      = (decide_groups dump_file p (cloned_functions keyLt (fn :: next))).1 := by
  have h1 : (if dump_file = true then [DumpLine.banner] else ([] : List (DumpLine σ))).filter
      DumpLine.isVerdict = [] := by
    cases dump_file <;> rfl
  have h2 : (dump_blocks dump_file 0 0 fn.blocks).filter DumpLine.isVerdict = [] := by
    rw [List.filter_eq_nil_iff]
    intro line hl
    rw [dump_blocks_not_verdict dump_file fn.blocks 0 0 line hl]
    decide
  have h3 : (decide_groups dump_file p (cloned_functions keyLt (fn :: next))).1.filter
      DumpLine.isVerdict = (decide_groups dump_file p (cloned_functions keyLt (fn :: next))).1 := by
    rw [List.filter_eq_self]
    exact decide_groups_verdict dump_file p _
  simp only [execute, List.filter_append, h1, h2, h3, List.nil_append]

theorem grouped_same_name {σ : Type} (m : CloneMap σ) (seen : List (Function σ))
    (hg : Grouped m seen) (pair1 pair2 : String × List (Function σ))
    (h1 : pair1 ∈ m) (h2 : pair2 ∈ m) (b1 b2 : Function σ)
    (hb1 : b1 ∈ pair1.2) (hb2 : b2 ∈ pair2.2) (hname : b1.name = b2.name) : pair1 = pair2 := by
  have e1 := hg.members pair1 h1
  have e2 := hg.members pair2 h2
  rw [e1] at hb1
  rw [e2] at hb2
  have k1 := ((filed_under_iff _ _).1 (List.mem_filter.1 hb1).2).2
  have k2 := ((filed_under_iff _ _).1 (List.mem_filter.1 hb2).2).2
  have hk : pair1.1 = pair2.1 := by rw [← k1, ← k2, hname]
  apply Prod.ext hk
  rw [e1, e2, hk]

theorem execute_verdict_mem {σ : Type} (keyLt : String → String → Bool) (p : σ → σ → Bool)
    (fn : Function σ) (next : List (Function σ)) (key : String) (base_func : Function σ)
    (clones : List (Function σ))
    (hmem : (key, base_func :: clones) ∈ cloned_functions keyLt (fn :: next))
    (hne : clones ≠ []) (line : DumpLine σ)
    (hline : line = DumpLine.prune base_func.name ∨ line = DumpLine.noprune base_func.name) :
    line ∈ (execute keyLt p true fn next).out ↔
      line = if (compare_clones p base_func clones).1 = true
        then DumpLine.prune base_func.name else DumpLine.noprune base_func.name := by
  have hv : line.isVerdict = true := by
    rcases hline with h | h <;> rw [h] <;> rfl
  have hout : line ∈ (execute keyLt p true fn next).out ↔
      line ∈ (decide_groups true p (cloned_functions keyLt (fn :: next))).1 := by
    rw [← execute_out_verdicts, List.mem_filter]
    exact ⟨fun h => ⟨h, hv⟩, fun h => h.1⟩
  rw [hout, decide_groups_out_mem]
  constructor
  · rintro ⟨pair, hp, hl⟩
    obtain ⟨b, cs, hsec, _, hline2⟩ := decide_group_line p pair.2 line hl
    have hnm : b.name = base_func.name := by
      rcases hline with h | h <;> rw [h] at hline2 <;> split at hline2 <;>
        first
          | exact (DumpLine.prune.inj hline2).symm
          | exact (DumpLine.noprune.inj hline2).symm
          | exact DumpLine.noConfusion hline2
    have hsame := grouped_same_name _ _ (grouped_cloned_functions keyLt (fn :: next))
      pair (key, base_func :: clones) hp hmem b base_func
      (by rw [hsec]; exact List.mem_cons_self _ _) (List.mem_cons_self _ _) hnm
    rw [hsame] at hsec
    simp only [List.cons.injEq] at hsec
    rw [hline2, ← hsec.1, ← hsec.2]
  · intro h
    refine ⟨(key, base_func :: clones), hmem, ?_⟩
    rw [decide_group_large p base_func clones hne, h]
    exact List.mem_singleton.2 rfl


theorem decide_groups_forall2 {σ : Type} (p : σ → σ → Bool) :
    ∀ m : CloneMap σ,
      List.Forall₂
        (fun (pair : String × List (Function σ)) (line : DumpLine σ) =>
          ∃ base_func clones, pair.2 = base_func :: clones
            ∧ (line = DumpLine.prune base_func.name ∨ line = DumpLine.noprune base_func.name))
        (m.filter fun pair => decide (1 < pair.2.length)) (decide_groups true p m).1
  | [] => by simp [decide_groups]
  | pair :: rest => by
    have ih := decide_groups_forall2 p rest
    unfold decide_groups
    by_cases hlen : pair.2.length ≤ 1
    · have hf : decide (1 < pair.2.length) = false := by simpa using hlen
      rw [List.filter_cons, hf, if_neg (by decide), decide_group_small true p pair.2 hlen]
      simpa using ih
    · have hf : decide (1 < pair.2.length) = true := by simpa using hlen
      rw [List.filter_cons, hf, if_pos rfl]
      cases hsec : pair.2 with
      | nil =>
        rw [hsec] at hlen
        simp at hlen
      | cons base_func clones =>
        have hne : clones ≠ [] := by
          intro e
          rw [hsec, e] at hlen
          simp at hlen
        rw [decide_group_large p base_func clones hne]
        simp only [List.singleton_append]
        refine List.Forall₂.cons ⟨base_func, clones, hsec, ?_⟩ ih
        split
        · exact Or.inl rfl
        · exact Or.inr rfl

/-! ## Claims on the decision loop -/

/-- C5: for a group of `cloned_functions` with at least two members, its first
member being the reference, `execute` writes `PRUNE: <reference>` exactly when
`are_functions_equivalent (reference, m)` is true for every member `m` after the
first, and writes `NOPRUNE: <reference>` exactly when that is not so. -/
theorem execute_verdict_iff {σ : Type} (keyLt : String → String → Bool) (p : σ → σ → Bool)
    (fn : Function σ) (next : List (Function σ)) (key : String) (members : List (Function σ))
    (hmem : (key, members) ∈ cloned_functions keyLt (fn :: next))
    (hsize : 2 ≤ members.length) :
    ∃ reference rest, members = reference :: rest
      ∧ (DumpLine.prune reference.name ∈ (execute keyLt p true fn next).out ↔
          ∀ m ∈ rest, are_functions_equivalent p reference m = true)
      ∧ (DumpLine.noprune reference.name ∈ (execute keyLt p true fn next).out ↔
          ¬ ∀ m ∈ rest, are_functions_equivalent p reference m = true) := by
  cases members with
  | nil => simp at hsize
  | cons reference rest =>
    have hne : rest ≠ [] := by
      intro e
      rw [e] at hsize
      simp at hsize
    refine ⟨reference, rest, rfl, ?_, ?_⟩
    · rw [execute_verdict_mem keyLt p fn next key reference rest hmem hne _ (Or.inl rfl),
        ← compare_clones_iff]
      by_cases hc : (compare_clones p reference rest).1 = true
      · simp [hc]
      · simp [hc]
    · rw [execute_verdict_mem keyLt p fn next key reference rest hmem hne _ (Or.inr rfl),
        ← compare_clones_iff]
      by_cases hc : (compare_clones p reference rest).1 = true
      · simp [hc]
      · simp [hc]

/-- Witness of `execute_verdict_iff`: the unit `a_clone_b`, `a_clone_b_clone`, whose
group keyed `a_clone_b` has two members. -/
theorem execute_verdict_iff_witness :
    ∃ reference rest, [fn_inner, fn_inner_clone] = reference :: rest
      ∧ (DumpLine.prune reference.name
            ∈ (execute keyLt_string eq_nat true fn_inner [fn_inner_clone]).out ↔
          ∀ m ∈ rest, are_functions_equivalent eq_nat reference m = true)
      ∧ (DumpLine.noprune reference.name
            ∈ (execute keyLt_string eq_nat true fn_inner [fn_inner_clone]).out ↔
          ¬ ∀ m ∈ rest, are_functions_equivalent eq_nat reference m = true) :=
  execute_verdict_iff keyLt_string eq_nat fn_inner [fn_inner_clone] "a_clone_b"
    [fn_inner, fn_inner_clone] (by decide) (by decide)

/-- C9: with a dump file open, the verdict lines `execute` writes are, in order,
one line per group of two or more members (`PRUNE:` or `NOPRUNE:` with the name
of the first member) and none for the other groups, so their number is the
number of groups of two or more; and every call of `are_functions_equivalent`
passes the first member of a group of two or more and a later member of it. -/
theorem execute_one_verdict_per_group {σ : Type} (keyLt : String → String → Bool)
    (p : σ → σ → Bool) (fn : Function σ) (next : List (Function σ)) :
    List.Forall₂
        (fun (pair : String × List (Function σ)) (line : DumpLine σ) =>
          ∃ base_func clones, pair.2 = base_func :: clones
            ∧ (line = DumpLine.prune base_func.name ∨ line = DumpLine.noprune base_func.name))
        ((cloned_functions keyLt (fn :: next)).filter fun pair => decide (1 < pair.2.length))
        ((execute keyLt p true fn next).out.filter DumpLine.isVerdict)
      ∧ ((execute keyLt p true fn next).out.filter DumpLine.isVerdict).length
          = ((cloned_functions keyLt (fn :: next)).filter
              fun pair => decide (1 < pair.2.length)).length
      ∧ ∀ call ∈ (execute keyLt p true fn next).calls,
          ∃ pair ∈ cloned_functions keyLt (fn :: next), 2 ≤ pair.2.length
            ∧ ∃ base_func clones, pair.2 = base_func :: clones
              ∧ call.1 = base_func ∧ call.2 ∈ clones := by
  have hall := decide_groups_forall2 p (cloned_functions keyLt (fn :: next))
  rw [execute_out_verdicts]
  refine ⟨hall, hall.length_eq.symm, ?_⟩
  intro call hcall
  have hcall2 : call ∈ (decide_groups true p (cloned_functions keyLt (fn :: next))).2 := hcall
  obtain ⟨pair, hp, hc⟩ := (decide_groups_calls_mem true p _ call).1 hcall2
  refine ⟨pair, hp, ?_⟩
  by_cases hlen : pair.2.length ≤ 1
  · rw [decide_group_small true p pair.2 hlen] at hc
    simp at hc
  · refine ⟨by omega, ?_⟩
    cases hsec : pair.2 with
    | nil =>
      rw [hsec] at hlen
      simp at hlen
    | cons base_func clones =>
      have hne : clones ≠ [] := by
        intro e
        rw [hsec, e] at hlen
        simp at hlen
      rw [hsec, decide_group_large p base_func clones hne] at hc
      have := compare_clones_calls p base_func clones call hc
      exact ⟨base_func, clones, rfl, this.1, this.2⟩

/-! ## End-to-end scenarios -/

/-- C10 as stated fails on the code: for the unit `foo` with block `[s1, s2]`
followed by `foo_clone` with block `[s1, s2]`, statements equal pairwise, the
last line written is the rendering of `s2`, not `PRUNE: foo`. -/
theorem scenario_a_last_line_not_prune :
    eq_nat 1 1 = true ∧ eq_nat 2 2 = true
      ∧ ((execute keyLt_string eq_nat true fn_foo [fn_foo_clone]).out.map
          (DumpLine.text render_nat)).getLast? = some "s2;\n"
      ∧ ((execute keyLt_string eq_nat true fn_foo [fn_foo_clone]).out.map
          (DumpLine.text render_nat)).getLast? ≠ some "PRUNE: foo\n" := by
  decide

/-- C10, amended: for the unit `foo` with block `[s1, s2]` followed by `foo_clone`
with block `[s1, s2]` and a dump file open, `execute` writes the dump of `foo` and
no verdict line (`foo` is not grouped, the group keyed `foo` holds `foo_clone`
alone); the last line written is the rendering of `s2`. -/
theorem scenario_a_output {σ : Type} (keyLt : String → String → Bool) (p : σ → σ → Bool)
    (render : σ → String) (s1 s2 : σ) :
    (execute keyLt p true { name := "foo", blocks := [[s1, s2]] }
        [{ name := "foo_clone", blocks := [[s1, s2]] }]).out
      = [DumpLine.banner, DumpLine.bb_count 1, DumpLine.stmt_count 1, DumpLine.stmt s1,
          DumpLine.stmt_count 2, DumpLine.stmt s2]
      ∧ ((execute keyLt p true { name := "foo", blocks := [[s1, s2]] }
          [{ name := "foo_clone", blocks := [[s1, s2]] }]).out.map
            (DumpLine.text render)).getLast? = some (render s2)
      ∧ cloned_functions keyLt
          [{ name := "foo", blocks := [[s1, s2]] }, { name := "foo_clone", blocks := [[s1, s2]] }]
        = [("foo", [{ name := "foo_clone", blocks := [[s1, s2]] }])] := by
  have h1 : (strstr ("foo" : String).data clone_suffix).isSome = false := by decide
  have h2 : (strstr ("foo_clone" : String).data clone_suffix).isSome = true := by decide
  have h3 : get_base_name "foo_clone" = "foo" := by decide
  have hg : cloned_functions keyLt
      [{ name := "foo", blocks := [[s1, s2]] }, { name := "foo_clone", blocks := [[s1, s2]] }]
        = [("foo", [{ name := "foo_clone", blocks := [[s1, s2]] }])] := by
    simp [cloned_functions, group_clones, h1, h2, h3, map_push_back, map_contains, map_insert]
  have hout : (execute keyLt p true { name := "foo", blocks := [[s1, s2]] }
        [{ name := "foo_clone", blocks := [[s1, s2]] }]).out
      = [DumpLine.banner, DumpLine.bb_count 1, DumpLine.stmt_count 1, DumpLine.stmt s1,
          DumpLine.stmt_count 2, DumpLine.stmt s2] := by
    simp [execute, hg, dump_blocks, dump_stmts, decide_groups, decide_group]
  refine ⟨hout, ?_, hg⟩
  rw [hout]
  simp [DumpLine.text]


/-- C11 as stated fails on the code: for the unit `foo` with block `[s1, s2]`
followed by `foo_clone` with block `[s1, s3]`, `s2` and `s3` different, the last
line written is the rendering of `s2`, not `NOPRUNE: foo`. -/
theorem scenario_b_last_line_not_noprune :
    eq_nat 2 3 = false
      ∧ ((execute keyLt_string eq_nat true fn_foo [fn_foo_clone_b]).out.map
          (DumpLine.text render_nat)).getLast? = some "s2;\n"
      ∧ ((execute keyLt_string eq_nat true fn_foo [fn_foo_clone_b]).out.map
          (DumpLine.text render_nat)).getLast? ≠ some "NOPRUNE: foo\n" := by
  decide

/-- C11, amended: for the unit `foo` with block `[s1, s2]` followed by `foo_clone`
with block `[s1, s3]` and a dump file open, whatever the statement equality says
of `s2` and `s3`, `execute` writes the dump of `foo` and no verdict line, makes
no call of `are_functions_equivalent`, and the last line written is the
rendering of `s2`. -/
theorem scenario_b_output {σ : Type} (keyLt : String → String → Bool) (p : σ → σ → Bool)
    (render : σ → String) (s1 s2 s3 : σ) :
    (execute keyLt p true { name := "foo", blocks := [[s1, s2]] }
        [{ name := "foo_clone", blocks := [[s1, s3]] }]).out
      = [DumpLine.banner, DumpLine.bb_count 1, DumpLine.stmt_count 1, DumpLine.stmt s1,
          DumpLine.stmt_count 2, DumpLine.stmt s2]
      ∧ (execute keyLt p true { name := "foo", blocks := [[s1, s2]] }
        [{ name := "foo_clone", blocks := [[s1, s3]] }]).calls = []
      ∧ ((execute keyLt p true { name := "foo", blocks := [[s1, s2]] }
          [{ name := "foo_clone", blocks := [[s1, s3]] }]).out.map
            (DumpLine.text render)).getLast? = some (render s2) := by
  have h1 : (strstr ("foo" : String).data clone_suffix).isSome = false := by decide
  have h2 : (strstr ("foo_clone" : String).data clone_suffix).isSome = true := by decide
  have h3 : get_base_name "foo_clone" = "foo" := by decide
  have hg : cloned_functions keyLt
      [{ name := "foo", blocks := [[s1, s2]] }, { name := "foo_clone", blocks := [[s1, s3]] }]
        = [("foo", [{ name := "foo_clone", blocks := [[s1, s3]] }])] := by
    simp [cloned_functions, group_clones, h1, h2, h3, map_push_back, map_contains, map_insert]
  have hout : (execute keyLt p true { name := "foo", blocks := [[s1, s2]] }
        [{ name := "foo_clone", blocks := [[s1, s3]] }]).out
      = [DumpLine.banner, DumpLine.bb_count 1, DumpLine.stmt_count 1, DumpLine.stmt s1,
          DumpLine.stmt_count 2, DumpLine.stmt s2] := by
    simp [execute, hg, dump_blocks, dump_stmts, decide_groups, decide_group]
  refine ⟨hout, ?_, ?_⟩
  · simp [execute, hg, decide_groups, decide_group]
  · rw [hout]
    simp [DumpLine.text]

/-! ## The comparison as the code computes it -/

theorem stmts_equal_of_get {σ : Type} (p : σ → σ → Bool) :
    ∀ (bb1 bb2 : List σ),
      (∀ (k : Nat) (s1 s2 : σ), bb1[k]? = some s1 → bb2[k]? = some s2 → p s1 s2 = true) →
        stmts_equal p bb1 bb2 = true
  | [], _, _ => by simp [stmts_equal]
  | _ :: _, [], _ => by simp [stmts_equal]
  | x :: xs, y :: ys, h => by
    unfold stmts_equal
    have hxy : p x y = true := h 0 x y (by simp) (by simp)
    rw [hxy]
    simp only [Bool.not_true, Bool.false_eq_true, if_false]
    exact stmts_equal_of_get p xs ys fun k s1 s2 h1 h2 =>
      h (k + 1) s1 s2 (by simpa using h1) (by simpa using h2)

theorem stmts_equal_nil_left {σ : Type} (p : σ → σ → Bool) (bb : List σ) :
    stmts_equal p [] bb = true := by
  simp [stmts_equal]

theorem stmts_equal_nil_right {σ : Type} (p : σ → σ → Bool) (bb : List σ) :
    stmts_equal p bb [] = true := by
  cases bb <;> simp [stmts_equal]

theorem stmts_equal_eq_zip_all {σ : Type} (p : σ → σ → Bool) :
    ∀ (bb1 bb2 : List σ), stmts_equal p bb1 bb2 = (bb1.zip bb2).all fun ss => p ss.1 ss.2
  | [], _ => by simp [stmts_equal]
  | _ :: _, [] => by simp [stmts_equal]
  | x :: xs, y :: ys => by
    unfold stmts_equal
    rw [stmts_equal_eq_zip_all p xs ys]
    cases h : p x y <;> simp [h]

/-- C17: `are_functions_equivalent (f1, f2)` returns true exactly when, for every
block `b1` of `f1` and every block `b2` of `f2` (all pairs) and every position `k`
below both lengths, the statement equality holds of `b1[k]` and `b2[k]`; the
numbers of blocks and of statements do not enter. -/
theorem are_functions_equivalent_all_pairs {σ : Type} (p : σ → σ → Bool)
    (f1 f2 : Function σ) :
    are_functions_equivalent p f1 f2 = true ↔
      ∀ b1 ∈ f1.blocks, ∀ b2 ∈ f2.blocks,
        ∀ (k : Nat) (h1 : k < b1.length) (h2 : k < b2.length), p b1[k] b2[k] = true := by
  rw [are_functions_equivalent_iff]
  constructor
  · intro h b1 hb1 b2 hb2 k h1 h2
    exact stmts_equal_get p b1 b2 (h b1 hb1 b2 hb2) k b1[k] b2[k]
      (List.getElem?_eq_getElem h1) (List.getElem?_eq_getElem h2)
  · intro h b1 hb1 b2 hb2
    apply stmts_equal_of_get
    intro k s1 s2 hs1 hs2
    obtain ⟨h1, e1⟩ := List.getElem?_eq_some.1 hs1
    obtain ⟨h2, e2⟩ := List.getElem?_eq_some.1 hs2
    rw [← e1, ← e2]
    exact h b1 hb1 b2 hb2 k h1 h2

/-- C18: a function `f` without blocks, or whose blocks are all empty, is
equivalent to every function `g`, in both argument orders. -/
theorem are_functions_equivalent_of_empty {σ : Type} (p : σ → σ → Bool) (f g : Function σ)
    (hempty : ∀ bb ∈ f.blocks, bb = []) :
    are_functions_equivalent p f g = true ∧ are_functions_equivalent p g f = true := by
  constructor
  · rw [are_functions_equivalent_iff]
    intro b1 hb1 b2 _
    rw [hempty b1 hb1]
    exact stmts_equal_nil_left p b2
  · rw [are_functions_equivalent_iff]
    intro b1 _ b2 hb2
    rw [hempty b2 hb2]
    exact stmts_equal_nil_right p b1

/-- Witness of `are_functions_equivalent_of_empty`: the function whose only block
is empty, against `fn_two_blocks`. -/
theorem are_functions_equivalent_of_empty_witness :
    are_functions_equivalent eq_nat fn_empty_block fn_two_blocks = true
      ∧ are_functions_equivalent eq_nat fn_two_blocks fn_empty_block = true :=
  are_functions_equivalent_of_empty eq_nat fn_empty_block fn_two_blocks (by decide)

/-- C20: for two functions of one block each, the two blocks of the same
length, `are_functions_equivalent` returns true exactly when the statement
equality holds of every corresponding pair of statements, and it agrees with
the positional comparison of the specification. -/
theorem are_functions_equivalent_single_block {σ : Type} (p : σ → σ → Bool)
    (f1 f2 : Function σ) (b1 b2 : List σ)
    (h1 : f1.blocks = [b1]) (h2 : f2.blocks = [b2]) (hlen : b1.length = b2.length) :
    (are_functions_equivalent p f1 f2 = true ↔ List.Forall₂ (fun s1 s2 => p s1 s2 = true) b1 b2)
      ∧ are_functions_equivalent p f1 f2 = positional_equivalent p f1 f2 := by
  have hcode : are_functions_equivalent p f1 f2 = (b1.zip b2).all fun ss => p ss.1 ss.2 := by
    simp [are_functions_equivalent, h1, h2, stmts_equal_eq_zip_all]
  constructor
  · rw [hcode, List.forall₂_iff_zip, List.all_eq_true]
    constructor
    · intro h
      exact ⟨hlen, fun {a b} hab => h (a, b) hab⟩
    · intro h ss hss
      exact h.2 hss
  · rw [hcode]
    simp [positional_equivalent, h1, h2, hlen]

/-- Witness of `are_functions_equivalent_single_block`: the blocks `[1, 2]` of
`fn_foo` and `[1, 3]` of `fn_foo_clone_b`. -/
theorem are_functions_equivalent_single_block_witness :
    (are_functions_equivalent eq_nat fn_foo fn_foo_clone_b = true ↔
        List.Forall₂ (fun s1 s2 => eq_nat s1 s2 = true) [1, 2] [1, 3])
      ∧ are_functions_equivalent eq_nat fn_foo fn_foo_clone_b
          = positional_equivalent eq_nat fn_foo fn_foo_clone_b :=
  are_functions_equivalent_single_block eq_nat fn_foo fn_foo_clone_b [1, 2] [1, 3] rfl rfl rfl


/-! ## Order and content of the groups -/

/-- C12: the members of every group of `cloned_functions` are the functions of
the unit filed under its key, in the order in which the traversal meets them,
so a member that precedes another in the unit precedes it in the group. -/
theorem group_members_in_encounter_order {σ : Type} (keyLt : String → String → Bool)
    (functions : List (Function σ)) (pair : String × List (Function σ))
    (hp : pair ∈ cloned_functions keyLt functions) :
    pair.2 = functions.filter (filed_under pair.1) ∧ pair.2.Sublist functions := by
  have hmem := (grouped_cloned_functions keyLt functions).members pair hp
  refine ⟨hmem, ?_⟩
  rw [hmem]
  exact List.filter_sublist _

/-- Witness of `group_members_in_encounter_order`: in the unit `a_clone_b`,
`foo_clone`, `a_clone_b_clone` the group keyed `a_clone_b` is `a_clone_b`,
`a_clone_b_clone`. -/
theorem group_members_in_encounter_order_witness :
    [fn_inner, fn_inner_clone]
        = [fn_inner, fn_foo_clone, fn_inner_clone].filter (filed_under "a_clone_b")
      ∧ [fn_inner, fn_inner_clone].Sublist [fn_inner, fn_foo_clone, fn_inner_clone] :=
  group_members_in_encounter_order keyLt_string [fn_inner, fn_foo_clone, fn_inner_clone]
    ("a_clone_b", [fn_inner, fn_inner_clone]) (by decide)

/-- C19: a function of the unit is in some group exactly when its name contains
`"_clone"` somewhere; the groups taken together hold each such function exactly
as often as the unit does; and every member of the group keyed `k` has base
name `k`. -/
theorem grouping_by_marker {σ : Type} (keyLt : String → String → Bool)
    (functions : List (Function σ)) :
    (∀ f ∈ functions, (∃ pair ∈ cloned_functions keyLt functions, f ∈ pair.2) ↔
        ∃ pre post, f.name.data = pre ++ ("_clone" : String).data ++ post)
      ∧ (∀ f : Function σ, has_clone_marker f = true ↔
          ∃ pre post, f.name.data = pre ++ ("_clone" : String).data ++ post)
      ∧ ((cloned_functions keyLt functions).flatMap Prod.snd).Perm
          (functions.filter has_clone_marker)
      ∧ ∀ pair ∈ cloned_functions keyLt functions, ∀ f ∈ pair.2,
          get_base_name f.name = pair.1 := by
  have hg := grouped_cloned_functions keyLt functions
  have hmark : ∀ f : Function σ, has_clone_marker f = true ↔
      ∃ pre post, f.name.data = pre ++ ("_clone" : String).data ++ post := by
    intro f
    exact strstr_isSome_iff clone_suffix f.name.data
  refine ⟨?_, hmark, hg.perm, ?_⟩
  · intro f hf
    rw [← hmark f]
    constructor
    · rintro ⟨pair, hp, hfp⟩
      rw [hg.members pair hp] at hfp
      exact ((filed_under_iff _ _).1 (List.mem_filter.1 hfp).2).1
    · intro hc
      have hmem : f ∈ (cloned_functions keyLt functions).flatMap Prod.snd :=
        hg.perm.mem_iff.2 (List.mem_filter.2 ⟨hf, hc⟩)
      obtain ⟨pair, hp, hfp⟩ := List.mem_flatMap.1 hmem
      exact ⟨pair, hp, hfp⟩
  · intro pair hp f hfp
    rw [hg.members pair hp] at hfp
    exact ((filed_under_iff _ _).1 (List.mem_filter.1 hfp).2).2

/-! ## Number of comparisons -/

theorem compare_clones_calls_eq {σ : Type} (p : σ → σ → Bool) (base_func : Function σ) :
    ∀ clones : List (Function σ), (compare_clones p base_func clones).2 =
      (clones.take ((clones.takeWhile (are_functions_equivalent p base_func)).length + 1)).map
        fun clone_func => (base_func, clone_func)
  | [] => by simp [compare_clones]
  | clone_func :: rest => by
    unfold compare_clones
    cases h : are_functions_equivalent p base_func clone_func with
    | false => simp [h, List.takeWhile_cons]
    | true => simp [h, List.takeWhile_cons, compare_clones_calls_eq p base_func rest]

theorem takeWhile_length_of_first_false {α : Type} (q : α → Bool) :
    ∀ (l : List α) (i : Nat) (c : α), l[i]? = some c → q c = false →
      (∀ j, j < i → ∀ d, l[j]? = some d → q d = true) → (l.takeWhile q).length = i
  | [], i, c, h, _, _ => by simp at h
  | x :: xs, 0, c, h, hc, _ => by
    simp only [List.getElem?_cons_zero, Option.some.injEq] at h
    rw [List.takeWhile_cons, h, hc]
    rfl
  | x :: xs, i + 1, c, h, hc, hall => by
    have hx : q x = true := hall 0 (Nat.succ_pos i) x (by simp)
    rw [List.takeWhile_cons, hx]
    simp only [if_true, List.length_cons, Nat.add_right_cancel_iff]
    apply takeWhile_length_of_first_false q xs i c (by simpa using h) hc
    intro j hj d hd
    exact hall (j + 1) (Nat.succ_lt_succ hj) d (by simpa using hd)

theorem decide_group_calls {σ : Type} (dump_file : Bool) (p : σ → σ → Bool)
    (base_func : Function σ) (clones : List (Function σ)) (h : clones ≠ []) :
    (decide_group dump_file p (base_func :: clones)).2 = (compare_clones p base_func clones).2 := by
  have hlen : (base_func :: clones).length > 1 := by
    have := List.length_pos.2 h
    simp only [List.length_cons]
    omega
  unfold decide_group
  rw [if_pos hlen]
  simp only
  split <;> rfl

theorem decide_groups_calls_eq {σ : Type} (dump_file : Bool) (p : σ → σ → Bool) :
    ∀ m : CloneMap σ, (decide_groups dump_file p m).2
      = m.flatMap fun pair => (decide_group dump_file p pair.2).2
  | [] => rfl
  | pair :: rest => by
    simp only [decide_groups, List.flatMap_cons, decide_groups_calls_eq dump_file p rest]

/-- C14: for a group of `k ≥ 2` members, the calls of `are_functions_equivalent`
made for the group pass the first member and, in order, the later members up to
and including the first one that is not equivalent to it.  Their number is at
least 1 and at most `k - 1`; it is `k - 1` when every comparison succeeds, and the
1-based position of the first failing member otherwise.  The calls of `execute`
are the calls made for its groups, one group after the other. -/
theorem calls_per_group {σ : Type} (keyLt : String → String → Bool) (p : σ → σ → Bool)
    (dump_file : Bool) (fn : Function σ) (next : List (Function σ)) (key : String)
    (members : List (Function σ))
    (hmem : (key, members) ∈ cloned_functions keyLt (fn :: next))
    (hsize : 2 ≤ members.length) :
    ∃ base_func clones, members = base_func :: clones
      ∧ (decide_group dump_file p members).2
          = (clones.take
              ((clones.takeWhile (are_functions_equivalent p base_func)).length + 1)).map
              (fun clone_func => (base_func, clone_func))
      ∧ 1 ≤ (decide_group dump_file p members).2.length
      ∧ (decide_group dump_file p members).2.length ≤ members.length - 1
      ∧ ((∀ m ∈ clones, are_functions_equivalent p base_func m = true) →
          (decide_group dump_file p members).2.length = members.length - 1)
      ∧ (∀ (i : Nat) (c : Function σ), clones[i]? = some c →
          are_functions_equivalent p base_func c = false →
          (∀ j, j < i → ∀ d, clones[j]? = some d →
            are_functions_equivalent p base_func d = true) →
          (decide_group dump_file p members).2.length = i + 1)
      ∧ (execute keyLt p dump_file fn next).calls
          = (cloned_functions keyLt (fn :: next)).flatMap
              fun pair => (decide_group dump_file p pair.2).2 := by
  cases members with
  | nil => simp at hsize
  | cons base_func clones =>
    have hne : clones ≠ [] := by
      intro e
      rw [e] at hsize
      simp at hsize
    have hpos : 0 < clones.length := List.length_pos.2 hne
    have hcalls := (decide_group_calls dump_file p base_func clones hne).trans
      (compare_clones_calls_eq p base_func clones)
    have hle : (clones.takeWhile (are_functions_equivalent p base_func)).length
        ≤ clones.length := (List.takeWhile_sublist _).length_le
    refine ⟨base_func, clones, rfl, hcalls, ?_, ?_, ?_, ?_, ?_⟩
    · rw [hcalls, List.length_map, List.length_take]
      omega
    · rw [hcalls, List.length_map, List.length_take]
      simp only [List.length_cons, Nat.add_sub_cancel]
      omega
    · intro hall
      have htw : clones.takeWhile (are_functions_equivalent p base_func) = clones :=
        List.takeWhile_eq_self_iff.2 hall
      rw [hcalls, List.length_map, List.length_take, htw]
      simp only [List.length_cons, Nat.add_sub_cancel]
      omega
    · intro i c hi hc hbefore
      have hlt : i < clones.length := (List.getElem?_eq_some.1 hi).1
      rw [hcalls, List.length_map, List.length_take,
        takeWhile_length_of_first_false _ clones i c hi hc hbefore]
      omega
    · exact decide_groups_calls_eq dump_file p _

/-- Witness of `calls_per_group`: the unit `a_clone_b`, `a_clone_b_clone`,
`a_clone_b_clone`, whose group has three members. -/
theorem calls_per_group_witness :
    (decide_group true eq_nat [fn_inner, fn_inner_other, fn_inner_clone]).2.length = 1 :=
  (calls_per_group keyLt_string eq_nat true fn_inner [fn_inner_other, fn_inner_clone]
    "a_clone_b" [fn_inner, fn_inner_other, fn_inner_clone] (by decide) (by decide)).elim
    fun base_func h => h.elim fun clones hc => by
      have hm := hc.1
      simp only [List.cons.injEq] at hm
      have hfirst := hc.2.2.2.2.2.1 0 fn_inner_other
        (by rw [← hm.2]; rfl) (by rw [← hm.1]; decide) (fun j hj => absurd hj (Nat.not_lt_zero j))
      exact hfirst


/-! ## The dump -/

theorem dump_stmts_eq {σ : Type} :
    ∀ (bb : List σ) (stmt_cnt : Nat), dump_stmts true stmt_cnt bb =
      (stmt_cnt + bb.length, (bb.enumFrom stmt_cnt).flatMap fun jg => stmt_lines (jg.1 + 1) jg.2)
  | [], stmt_cnt => by simp [dump_stmts]
  | g :: rest, stmt_cnt => by
    simp only [dump_stmts, dump_stmts_eq rest (stmt_cnt + 1), if_true, List.length_cons,
      List.enumFrom_cons, List.flatMap_cons, stmt_lines, Prod.mk.injEq, and_true]
    omega

theorem dump_blocks_headers {σ : Type} :
    ∀ (blocks : List (List σ)) (bb_cnt stmt_cnt : Nat),
      (dump_blocks true bb_cnt stmt_cnt blocks).filter DumpLine.isBlockHeader
        = (List.range' (bb_cnt + 1) blocks.length).map DumpLine.bb_count
  | [], _, _ => by simp [dump_blocks]
  | bb :: rest, bb_cnt, stmt_cnt => by
    have hs : ((bb.enumFrom stmt_cnt).flatMap fun jg =>
        (stmt_lines (jg.1 + 1) jg.2 : List (DumpLine σ))).filter DumpLine.isBlockHeader = [] := by
      rw [List.filter_eq_nil_iff]
      intro line hl
      obtain ⟨jg, _, hjg⟩ := List.mem_flatMap.1 hl
      simp only [stmt_lines, List.mem_cons, List.mem_singleton, List.not_mem_nil, or_false] at hjg
      rcases hjg with h | h <;> rw [h] <;> simp [DumpLine.isBlockHeader]
    simp only [dump_blocks, dump_stmts_eq, if_true, List.filter_append, hs,
      dump_blocks_headers rest, List.length_cons, List.range'_succ, List.map_cons,
      List.append_nil]
    rfl

theorem dump_blocks_statements {σ : Type} :
    ∀ (blocks : List (List σ)) (bb_cnt stmt_cnt : Nat),
      (dump_blocks true bb_cnt stmt_cnt blocks).filter (fun line => !line.isBlockHeader)
        = (blocks.flatten.enumFrom stmt_cnt).flatMap fun jg => stmt_lines (jg.1 + 1) jg.2
  | [], _, _ => by simp [dump_blocks]
  | bb :: rest, bb_cnt, stmt_cnt => by
    have hs : ((bb.enumFrom stmt_cnt).flatMap fun jg =>
        (stmt_lines (jg.1 + 1) jg.2 : List (DumpLine σ))).filter (fun line => !line.isBlockHeader)
          = (bb.enumFrom stmt_cnt).flatMap fun jg => stmt_lines (jg.1 + 1) jg.2 := by
      rw [List.filter_eq_self]
      intro line hl
      obtain ⟨jg, _, hjg⟩ := List.mem_flatMap.1 hl
      simp only [stmt_lines, List.mem_cons, List.mem_singleton, List.not_mem_nil, or_false] at hjg
      rcases hjg with h | h <;> rw [h] <;> simp [DumpLine.isBlockHeader]
    simp only [dump_blocks, dump_stmts_eq, if_true, List.filter_append, hs,
      dump_blocks_statements rest, List.flatten_cons, List.enumFrom_append, List.flatMap_append]
    simp [DumpLine.isBlockHeader]

theorem dump_blocks_eq {σ : Type} :
    ∀ (blocks pre : List (List σ)),
      dump_blocks true pre.length pre.flatten.length blocks =
        (List.range' pre.length blocks.length).flatMap fun i =>
          DumpLine.bb_count (i + 1) ::
            (((pre ++ blocks).getD i []).enumFrom ((pre ++ blocks).take i).flatten.length).flatMap
              fun jg => stmt_lines (jg.1 + 1) jg.2
  | [], pre => by simp [dump_blocks]
  | bb :: rest, pre => by
    have ih := dump_blocks_eq rest (pre ++ [bb])
    simp only [List.length_append, List.length_singleton, List.flatten_append,
      List.flatten_cons, List.flatten_nil, List.append_nil, List.append_assoc,
      List.singleton_append] at ih
    have hget : (pre ++ bb :: rest).getD pre.length [] = bb := by
      rw [List.getD_eq_getElem?_getD, List.getElem?_append_right (Nat.le_refl _), Nat.sub_self]
      simp
    have htake : (pre ++ bb :: rest).take pre.length = pre := by
      simp
    simp only [dump_blocks, dump_stmts_eq, if_true, List.length_cons, List.range'_succ,
      List.flatMap_cons, hget, htake, ih, List.singleton_append, List.cons_append,
      List.nil_append]

/-- C16: with a dump file open, `execute` writes the banner, then the dump of the
function, then the verdict lines.  The dump of a function with `n` blocks has
exactly the block headers numbered `1 .. n`, in order; its other lines are, for
the statements of all blocks in program order, the `Statement count` line and
the rendering of the statement, the count running `1, 2, ...` over the whole
function; and the header of block `i` stands right before the lines of its
statements, which are numbered from the number of statements of the earlier
blocks plus one. -/
theorem execute_dump_part {σ : Type} (keyLt : String → String → Bool) (p : σ → σ → Bool)
    (fn : Function σ) (next : List (Function σ)) :
    ∃ dump verdicts,
      (execute keyLt p true fn next).out = DumpLine.banner :: (dump ++ verdicts)
        ∧ (∀ line ∈ verdicts, line.isVerdict = true)
        ∧ dump.filter DumpLine.isBlockHeader
            = (List.range' 1 fn.blocks.length).map DumpLine.bb_count
        ∧ dump.filter (fun line => !line.isBlockHeader)
            = (fn.blocks.flatten.enumFrom 0).flatMap
                (fun jg => [DumpLine.stmt_count (jg.1 + 1), DumpLine.stmt jg.2])
        ∧ dump = (List.range' 0 fn.blocks.length).flatMap fun i =>
            DumpLine.bb_count (i + 1) ::
              ((fn.blocks.getD i []).enumFrom (fn.blocks.take i).flatten.length).flatMap
                fun jg => [DumpLine.stmt_count (jg.1 + 1), DumpLine.stmt jg.2] := by
  refine ⟨dump_blocks true 0 0 fn.blocks,
    (decide_groups true p (cloned_functions keyLt (fn :: next))).1, ?_, ?_, ?_, ?_, ?_⟩
  · simp [execute]
  · exact decide_groups_verdict true p _
  · exact dump_blocks_headers fn.blocks 0 0
  · exact dump_blocks_statements fn.blocks 0 0
  · exact dump_blocks_eq fn.blocks []


/-! ## Order of the groups -/

theorem chars_lt_cons_iff (x y : Char) (xs ys : List Char) :
    chars_lt (x :: xs) (y :: ys) = true ↔
      x.toNat < y.toNat ∨ (x = y ∧ chars_lt xs ys = true) := by
  rw [chars_lt]
  by_cases h1 : x.toNat < y.toNat
  · simp [h1]
  · by_cases h2 : x = y
    · simp [h2]
    · simp [h1, h2]

theorem chars_lt_trans : ∀ (a b c : List Char),
    chars_lt a b = true → chars_lt b c = true → chars_lt a c = true
  | _, _, [], _, h2 => by
    unfold chars_lt at h2
    simp at h2
  | [], _, _ :: _, _, _ => by simp [chars_lt]
  | _ :: _, [], _ :: _, h1, _ => by
    unfold chars_lt at h1
    simp at h1
  | x :: xs, y :: ys, z :: zs, h1, h2 => by
    rw [chars_lt_cons_iff] at h1 h2 ⊢
    rcases h1 with h1 | ⟨e1, h1⟩
    · rcases h2 with h2 | ⟨e2, _⟩
      · exact Or.inl (Nat.lt_trans h1 h2)
      · exact Or.inl (e2 ▸ h1)
    · rcases h2 with h2 | ⟨e2, h2⟩
      · exact Or.inl (e1 ▸ h2)
      · exact Or.inr ⟨e1.trans e2, chars_lt_trans xs ys zs h1 h2⟩

theorem chars_lt_total : ∀ (a b : List Char), a ≠ b →
    chars_lt a b = true ∨ chars_lt b a = true
  | [], [], h => absurd rfl h
  | [], _ :: _, _ => Or.inl (by simp [chars_lt])
  | _ :: _, [], _ => Or.inr (by simp [chars_lt])
  | x :: xs, y :: ys, h => by
    rw [chars_lt_cons_iff, chars_lt_cons_iff]
    rcases Nat.lt_trichotomy x.toNat y.toNat with hlt | heq | hgt
    · exact Or.inl (Or.inl hlt)
    · have hxy : x = y := by
        rw [← Char.ofNat_toNat x, ← Char.ofNat_toNat y, heq]
      have hne : xs ≠ ys := fun e => h (by rw [hxy, e])
      rcases chars_lt_total xs ys hne with h1 | h1
      · exact Or.inl (Or.inr ⟨hxy, h1⟩)
      · exact Or.inr (Or.inr ⟨hxy.symm, h1⟩)
    · exact Or.inr (Or.inl hgt)

theorem map_insert_keys_sorted {σ : Type} (keyLt : String → String → Bool)
    (htrans : ∀ a b c, keyLt a b = true → keyLt b c = true → keyLt a c = true)
    (htotal : ∀ a b, a ≠ b → keyLt a b = true ∨ keyLt b a = true)
    (entry : String × List (Function σ)) :
    ∀ m : CloneMap σ, (m.map Prod.fst).Pairwise (fun a b => keyLt a b = true) →
      entry.1 ∉ m.map Prod.fst →
        ((map_insert keyLt entry m).map Prod.fst).Pairwise fun a b => keyLt a b = true
  | [], _, _ => by simp [map_insert]
  | pair :: rest, hs, hk => by
    simp only [List.map_cons, List.pairwise_cons] at hs
    simp only [List.map_cons, List.mem_cons, not_or] at hk
    unfold map_insert
    by_cases hlt : keyLt entry.1 pair.1 = true
    · rw [if_pos hlt]
      simp only [List.map_cons, List.pairwise_cons, List.mem_cons]
      refine ⟨?_, hs.1, hs.2⟩
      intro x hx
      rcases hx with hx | hx
      · rw [hx]
        exact hlt
      · exact htrans _ _ _ hlt (hs.1 x hx)
    · rw [if_neg hlt]
      simp only [List.map_cons, List.pairwise_cons]
      refine ⟨?_, map_insert_keys_sorted keyLt htrans htotal entry rest hs.2 hk.2⟩
      intro x hx
      have hx2 : x ∈ (entry :: rest).map Prod.fst :=
        ((map_insert_perm keyLt entry rest).map Prod.fst).subset hx
      simp only [List.map_cons, List.mem_cons] at hx2
      rcases hx2 with hx2 | hx2
      · rw [hx2]
        rcases htotal entry.1 pair.1 hk.1 with h | h
        · exact absurd h hlt
        · exact h
      · exact hs.1 x hx2

theorem group_clones_keys_sorted {σ : Type} (keyLt : String → String → Bool)
    (htrans : ∀ a b c, keyLt a b = true → keyLt b c = true → keyLt a c = true)
    (htotal : ∀ a b, a ≠ b → keyLt a b = true ∨ keyLt b a = true) :
    ∀ (functions : List (Function σ)) (m : CloneMap σ),
      (m.map Prod.fst).Pairwise (fun a b => keyLt a b = true) →
        ((group_clones keyLt functions m).map Prod.fst).Pairwise fun a b => keyLt a b = true
  | [], m, hs => by simpa [group_clones] using hs
  | f :: rest, m, hs => by
    unfold group_clones
    simp only
    split
    · apply group_clones_keys_sorted keyLt htrans htotal rest
      unfold map_push_back
      by_cases hc : map_contains m (get_base_name f.name) = true
      · rw [if_pos hc, map_update_keys]
        exact hs
      · rw [if_neg hc]
        exact map_insert_keys_sorted keyLt htrans htotal _ m hs
          fun h => hc ((map_contains_iff m _).2 h)
    · exact group_clones_keys_sorted keyLt htrans htotal rest m hs

/-- C13 as stated fails on the code: in the unit `z_clone_b`, `z_clone_b_clone`,
`a_clone_b`, `a_clone_b_clone` the key `z_clone_b` is met first, but with the keys
of the map ordered as strings the verdict of `a_clone_b` is written first. -/
theorem verdict_order_not_encounter_order :
    ([fn_late, fn_late_clone, fn_inner, fn_inner_clone].map fun f => get_base_name f.name)
        = ["z_clone_b", "z_clone_b", "a_clone_b", "a_clone_b"]
      ∧ (execute keyLt_string eq_nat true fn_late
          [fn_late_clone, fn_inner, fn_inner_clone]).out.filter DumpLine.isVerdict
        = [DumpLine.prune "a_clone_b", DumpLine.prune "z_clone_b"] := by
  decide

/-- C13, amended: groups are decided in the key order of the map.  When `keyLt`,
the order of the keys of `cloned_functions`, is transitive and total, the groups
of two or more members stand in increasing key order, and the verdict lines of
`execute` are, in that order, one line for each of them. -/
theorem verdicts_in_key_order {σ : Type} (keyLt : String → String → Bool)
    (p : σ → σ → Bool) (fn : Function σ) (next : List (Function σ))
    (htrans : ∀ a b c, keyLt a b = true → keyLt b c = true → keyLt a c = true)
    (htotal : ∀ a b, a ≠ b → keyLt a b = true ∨ keyLt b a = true) :
    ((cloned_functions keyLt (fn :: next)).filter fun pair => decide (1 < pair.2.length)).Pairwise
        (fun a b => keyLt a.1 b.1 = true)
      ∧ List.Forall₂
        (fun (pair : String × List (Function σ)) (line : DumpLine σ) =>
          ∃ base_func clones, pair.2 = base_func :: clones
            ∧ (line = DumpLine.prune base_func.name ∨ line = DumpLine.noprune base_func.name))
        ((cloned_functions keyLt (fn :: next)).filter fun pair => decide (1 < pair.2.length))
        ((execute keyLt p true fn next).out.filter DumpLine.isVerdict) := by
  constructor
  · apply List.Pairwise.filter
    have hs := group_clones_keys_sorted keyLt htrans htotal (fn :: next) [] (by simp)
    rw [List.pairwise_map] at hs
    exact hs
  · rw [execute_out_verdicts]
    exact decide_groups_forall2 p _

/-- Witness of `verdicts_in_key_order`: the keys ordered as strings, on the unit
`z_clone_b`, `z_clone_b_clone`, `a_clone_b`, `a_clone_b_clone`. -/
theorem verdicts_in_key_order_witness :
    ((cloned_functions keyLt_string [fn_late, fn_late_clone, fn_inner, fn_inner_clone]).filter
        fun pair => decide (1 < pair.2.length)).Pairwise
        (fun a b => keyLt_string a.1 b.1 = true)
      ∧ List.Forall₂
        (fun (pair : String × List (Function Nat)) (line : DumpLine Nat) =>
          ∃ base_func clones, pair.2 = base_func :: clones
            ∧ (line = DumpLine.prune base_func.name ∨ line = DumpLine.noprune base_func.name))
        ((cloned_functions keyLt_string [fn_late, fn_late_clone, fn_inner, fn_inner_clone]).filter
          fun pair => decide (1 < pair.2.length))
        ((execute keyLt_string eq_nat true fn_late
          [fn_late_clone, fn_inner, fn_inner_clone]).out.filter DumpLine.isVerdict) :=
  verdicts_in_key_order keyLt_string eq_nat fn_late [fn_late_clone, fn_inner, fn_inner_clone]
    (fun a b c h1 h2 => chars_lt_trans a.data b.data c.data h1 h2)
    (fun a b h => chars_lt_total a.data b.data fun e => h (String.ext e))

end Ctyler
